import Mathlib

/-!
A shallow embedding of `src/src/index.ts` of `icesjs/use-loader` (the current
version of the module, i.e. the first of the two versions stored in the file;
claim line references point into it).  The embedding models:

* the webpack rule tree (`Rule`, `RElem`, `UseVal`, `UseItem`, `Config`);
* the locator (`findLoaderRule` / `matchRuleSet` / `findLoader`);
* the mutator (`addLoader`, `addLoaderBefore`, `addLoaderAfter`,
  `getPosition`, `getNewRule`, `addNewLoader` alias `jsSplice`);
* the identity resolver (`resolveLoaderPath`, `getPackageName`,
  `isSamePath`, `isSamePackage`).

Modelling conventions:

* JavaScript objects that the code only probes via `typeof`/truthiness are
  modelled by small inductives carrying exactly the distinctions the code
  observes.
* JS arrays are mutable shared references; in this pure embedding every array
  in the tree carries a numeric id, a match record stores the id of its
  sibling array, and mutation rewrites the array with that id wherever it
  occurs.  Theorems about mutation assume the ids are `Nodup`, which models
  an alias-free tree (each array literal is a distinct object).
* Filesystem / module-resolution effects (`require.resolve`, `fs.existsSync`,
  `process.cwd()`, reading `package.json`) are supplied by an `Env` record.
* Fallible code runs in `Except JErr`; `JErr.thrown` carries the JS error
  message and `JErr.diverge` marks an infinite loop (the `getPackageName`
  walk can spin at the filesystem root, where `path.dirname` is a fixpoint;
  the loop's exit tests are pure, so divergence is decidable and is signalled
  as a value instead of by nontermination).
-/

set_option maxHeartbeats 1000000
set_option maxRecDepth 100000

namespace UseLoader

/-- JS error model: `thrown msg` for a thrown `Error(msg)`, `diverge` for an
infinite loop. -/
inductive JErr where
  | thrown (msg : String)
  | diverge
deriving Repr, DecidableEq

/-- A JavaScript value sitting in one of a rule's condition fields
(`test`, `include`, `exclude`, `resourceQuery`, `resource`, `issuer`,
`compiler`).  Only truthiness and `typeof` are ever observed. -/
inductive JSCond where
  | undef
  | nullv
  | bool (b : Bool)
  | num (n : Int)
  | str (s : String)
  | regex
  | func
  | obj
  | arr (items : List JSCond)
deriving Repr

/-- JS truthiness test (`!item`) for condition values. -/
def JSCond.falsy : JSCond → Bool
  | .undef => true
  | .nullv => true
  | .bool b => !b
  | .num n => n == 0
  | .str s => s == ""
  | _ => false

/-- `isCondition` from `hasRuleConditions` (src/src/index.ts:332-348).
Falsy values are rejected first; then `typeof` string / RegExp instance /
function / object accept.  Note a JS array has `typeof 'object'`, so the
`Array.isArray` recursion in the source is dead code; truthy numbers and
`true` fall through to `false`. -/
def isCondition (item : JSCond) : Bool :=
  if item.falsy then false
  else
    match item with
    | .str _ => true
    | .regex => true
    | .func => true
    | .obj => true
    | .arr _ => true
    | _ => false

/-- The condition fields of a rule (`include` is spelled `incl` because
`include` is a Lean keyword). -/
structure Conds where
  test : JSCond := .undef
  incl : JSCond := .undef
  exclude : JSCond := .undef
  resourceQuery : JSCond := .undef
  resource : JSCond := .undef
  issuer : JSCond := .undef
  compiler : JSCond := .undef
deriving Repr

mutual
/-- A webpack `RuleSetRule` object (also used for any plain JS object the code
stores in a `use` list: the code only ever reads the fields modelled here).
`rtype` is the `type` field (webpack 5 string tag); `useF`/`loaders` are the
legacy invocation fields scanned alongside `loader`; `oneOf`/`rulesF` are the
nested rule lists. -/
inductive Rule where
  | mk (loader useF loaders : UseVal) (rtype : Option String)
       (conds : Conds) (oneOf rulesF : Option SubArr)

/-- A nested rule array (`rule.oneOf` / `rule.rules`): an array id plus
elements. -/
inductive SubArr where
  | mk (id : Nat) (items : List RElem)

/-- An element of a rules array: `null`-ish entries are skipped by the walk;
`strE`/`fnE` model truthy non-rule junk (strings, functions, nested arrays)
whose field reads all yield `undefined`. -/
inductive RElem where
  | null
  | rule (r : Rule)
  | strE (s : String)
  | fnE

/-- The value of one of the invocation fields `rule.loader` / `rule.use` /
`rule.loaders` (`RuleSetUse`): absent, a string, an object, an array of use
items (with the array's id), or a function. -/
inductive UseVal where
  | undef
  | str (s : String)
  | obj (r : Rule)
  | arr (id : Nat) (items : List UseItem)
  | fn

/-- An element of a `use` array (`RuleSetUseItem`): a loader string, an
object, or a function. -/
inductive UseItem where
  | str (s : String)
  | obj (r : Rule)
  | fn
end

def Rule.loader : Rule → UseVal
  | .mk l _ _ _ _ _ _ => l

def Rule.useF : Rule → UseVal
  | .mk _ u _ _ _ _ _ => u

def Rule.loaders : Rule → UseVal
  | .mk _ _ ld _ _ _ _ => ld

def Rule.rtype : Rule → Option String
  | .mk _ _ _ t _ _ _ => t

def Rule.conds : Rule → Conds
  | .mk _ _ _ _ c _ _ => c

def Rule.oneOf : Rule → Option SubArr
  | .mk _ _ _ _ _ o _ => o

def Rule.rulesF : Rule → Option SubArr
  | .mk _ _ _ _ _ _ rs => rs

def SubArr.id : SubArr → Nat
  | .mk i _ => i

def SubArr.items : SubArr → List RElem
  | .mk _ l => l

/-- The `type` field read as a condition value inside `hasRuleConditions`
(a string field; `undefined` when absent). -/
def typeCond : Option String → JSCond
  | none => .undef
  | some s => .str s

/-- `hasRuleConditions` (src/src/index.ts:331-359): ORs `isCondition` over
the eight condition-carrying fields, `type` included. -/
def hasRuleConditions (r : Rule) : Bool :=
  isCondition r.conds.test || isCondition r.conds.incl ||
  isCondition r.conds.exclude || isCondition r.conds.resourceQuery ||
  isCondition r.conds.resource || isCondition r.conds.issuer ||
  isCondition r.conds.compiler || isCondition (typeCond r.rtype)

/-- `Array.isArray(rule.oneOf) && !!rule.oneOf.length` (src/src/index.ts:303). -/
def hasOneOfB (r : Rule) : Bool :=
  match r.oneOf with
  | some a => !a.items.isEmpty
  | none => false

/-- `Array.isArray(rule.rules) && !!rule.rules.length` (src/src/index.ts:304). -/
def hasRulesB (r : Rule) : Bool :=
  match r.rulesF with
  | some a => !a.items.isEmpty
  | none => false

/-- `config.module` model: only the `rules` field matters; `some (id, items)`
is an array with id `id`, `none` is an absent (or non-array) `rules`. -/
structure ModuleCfg where
  rules : Option (Nat × List RElem)

/-- A webpack `Configuration`: only `module` is ever read. -/
structure Config where
  module : Option ModuleCfg

/-! ## Identity resolver: paths, `getPackageName`, `isSamePath`, `isSamePackage` -/

/-- The result of reading `require(dir + '/package.json').name`:
a declared name, a manifest without a `name` field (the read yields
`undefined`), or a manifest whose `require` throws (invalid JSON). -/
inductive ManifestRes where
  | name (s : String)
  | noName
  | unreadable
deriving Repr, DecidableEq

/-- The ambient Node environment: working directory (as the component list of
a normalized absolute path), `require.resolve` rooted at the cwd (`none` for a
resolution failure, i.e. a throw that the code catches), the
`fs.existsSync(dir + '/package.json')` probe, and the manifest reader.
Directories are component lists of normalized absolute paths (`[]` is `/`). -/
structure Env where
  cwd : List String
  resolve : String → Option String
  hasPkg : List String → Bool
  manifest : List String → ManifestRes

/-- `path.isAbsolute` (POSIX).  (Char-level implementation: the byte-indexed
`String` primitives do not reduce in the kernel.) -/
def isAbsolute (s : String) : Bool :=
  match s.data with
  | '/' :: _ => true
  | _ => false

/-- Split a character list at `/` (the char-level `String.splitOn "/"`). -/
def splitSlash : List Char → List (List Char)
  | [] => [[]]
  | '/' :: rest => [] :: splitSlash rest
  | c :: rest =>
      match splitSlash rest with
      | [] => [[c]]
      | g :: gs => (c :: g) :: gs

/-- Split a path string into its non-empty components. -/
def toComps (s : String) : List String :=
  ((splitSlash s.data).filter (fun c => c ≠ [])).map (fun l => String.mk l)

/-- `path.basename` on a directory given as components (`basename('/') = ''`). -/
def basenameComps (l : List String) : String := l.getLast?.getD ""

/-- `path.basename` on a path string. -/
def jsBasename (s : String) : String := basenameComps (toComps s)

/-- The `while` loop of `getPackageName` (src/src/index.ts:432-437) on an
absolute path given as components.  One iteration: step to the parent
directory (the assignment `file = path.dirname(file)` inside the condition),
exit with the directory if `package.json` exists there, exit with `''`
(modelled `none`) if the parent is the cwd or is named `node_modules`,
otherwise repeat.  At the root `path.dirname` is a fixpoint, so when neither
exit test fires there the real loop spins forever; that state is returned as
`JErr.diverge`. -/
def gpnLoop (env : Env) (file : List String) : Except JErr (Option (List String)) :=
  let parent := file.dropLast
  if env.hasPkg parent then .ok (some parent)
  else if parent = env.cwd ∨ basenameComps parent = "node_modules" then .ok none
  else if h : file.isEmpty then .error .diverge
  else gpnLoop env parent
termination_by file.length
decreasing_by
  have hne : file ≠ [] := fun hf => h (by simp [hf])
  have hpos : 0 < file.length := List.length_pos.mpr hne
  simpa [parent, List.length_dropLast] using Nat.sub_lt hpos Nat.one_pos

/-- `getPackageName` (src/src/index.ts:427-446).  Returns the manifest's
declared name (`some (some s)`), `undefined` when the manifest has no name
(`some none`), `''` (`some (some "")`) on the early-outs and on an unreadable
manifest, and `JErr.diverge` when the walk reaches the filesystem root with
no `package.json` there and without hitting the cwd / `node_modules` exits. -/
def getPackageName (env : Env) (file : String) : Except JErr (Option String) :=
  if file = "" ∨ ¬ isAbsolute file then .ok (some "")
  else do
    match ← gpnLoop env (toComps file) with
    | none => .ok (some "")
    | some [] => .ok (some "")
    | some d =>
        match env.manifest d with
        | .name s => .ok (some s)
        | .noName => .ok none
        | .unreadable => .ok (some "")

/-- `resolveLoaderPath` (src/src/index.ts:448-459): absolute specifiers pass
through; otherwise `require.resolve` from the cwd, with failure caught and
mapped to `''`. -/
def resolveLoaderPath (env : Env) (loaderPath : String) : String :=
  if isAbsolute loaderPath then loaderPath
  else (env.resolve loaderPath).getD ""

/-- The per-character normalization of `isSamePath`:
`x.replace(/\\/g, '/').toLowerCase()` replaces single characters and then
case folds, so it acts characterwise (`toLowerCase` fixes `/` and `\`).
ASCII case folding (`Char.toLower`); the paths in play are ASCII. -/
def normChar (c : Char) : Char := if c = '\\' then '/' else c.toLower

/-- `isSamePath` (src/src/index.ts:461-463): compare with backslashes
unified to `/` and case folded. -/
def isSamePath (x y : String) : Bool :=
  x.data.map normChar == y.data.map normChar

/-- JS truthiness of a string-or-undefined value. -/
def truthyS : Option String → Bool
  | some s => s != ""
  | none => false

/-- `path.basename` applied to a string-or-undefined value; Node throws a
TypeError on `undefined`. -/
def jsBasenameOpt : Option String → Except JErr String
  | some s => .ok (jsBasename s)
  | none => .error (.thrown "TypeError: path must be a string")

/-- `isSamePackage` (src/src/index.ts:465-478). -/
def isSamePackage (env : Env) (x y : Option String) : Except JErr Bool :=
  if truthyS x && truthyS y && x == y then .ok true
  else do
    let bx ← jsBasenameOpt x
    let byy ← jsBasenameOpt y
    if bx = byy then do
      let xn ← getPackageName env (x.getD "")
      let yn ← getPackageName env (y.getD "")
      if truthyS xn && truthyS yn then .ok (xn == yn) else .ok false
    else .ok false

/-! ## Match records and matcher plumbing -/

/-- `RuleLoaderItem`, the match record the locator pushes: the `loader`
property of the pushed item (`some s` when it is a JS string, `none`
otherwise), the index in the sibling collection, the two site flags, and the
id of the sibling array (`isUseItem` tells whether that id names a `use`
array or a rules array).  The `rule`/`parent` back-references the source also
stores are not inspected by any claim and are omitted. -/
structure Rec where
  loader : Option String
  index : Nat
  isUseItem : Bool
  isOneOf : Bool
  sib : Nat
deriving Repr, DecidableEq

/-- `MatchParameter`: what a `Matcher` receives after the resolution wrapper
(src/src/index.ts:98-105) ran — the resolved absolute path (or `undefined`),
the derived package name, and the record context. -/
structure MatchArg where
  loader : Option String
  name : Option String
  index : Nat
  isUseItem : Bool
  isOneOf : Bool
  sib : Nat

/-- The caller's match specification: a stage-identity string or a predicate. -/
inductive SpecM where
  | str (s : String)
  | fn (f : MatchArg → Bool)

/-- A `ParentMatcher` gate. -/
def PGate := Rule → Option Rule → Bool

/-- The compiled predicate for a string spec (src/src/index.ts:89-91):
`typeof loader === 'string' && (isSamePath(loaderPath, loader) ||
isSamePackage(loaderName, name))`, with JS short-circuiting. -/
def strMatchPred (env : Env) (loaderPath : String) (loaderName : Option String)
    (a : MatchArg) : Except JErr Bool :=
  match a.loader with
  | some l =>
      if isSamePath loaderPath l then .ok true
      else isSamePackage env loaderName a.name
  | none => .ok false

/-- The resolution wrapper `findLoader` installs around the matcher
(src/src/index.ts:98-106): resolve the record's raw `loader`, derive the
package name (`''` when the resolved path is falsy), and call the matcher. -/
def wrapMatcher (env : Env) (um : MatchArg → Except JErr Bool) (rec : Rec) :
    Except JErr Bool := do
  let absolutePath := rec.loader.map (resolveLoaderPath env)
  let nm ← match absolutePath with
    | some p => if p ≠ "" then getPackageName env p else .ok (some "")
    | none => .ok (some "")
  um { loader := absolutePath, name := nm, index := rec.index,
       isUseItem := rec.isUseItem, isOneOf := rec.isOneOf, sib := rec.sib }

/-- Compile the caller's spec into the `FindMatcher` used by the tree walk
(src/src/index.ts:86-106).  For a string spec the canonical path and package
name are computed once, eagerly. -/
def buildMatcher (env : Env) (spec : SpecM) : Except JErr (Rec → Except JErr Bool) :=
  match spec with
  | .str s => do
      let loaderPath := resolveLoaderPath env s
      let loaderName ← getPackageName env loaderPath
      .ok (wrapMatcher env (strMatchPred env loaderPath loaderName))
  | .fn f => .ok (wrapMatcher env (fun a => .ok (f a)))

/-! ## The locator: `matchRuleSet` and `findLoaderRule` -/

/-- `typeof v === 'string' ? v : undefined` for an invocation-field value:
the `loader` property a spread copies out of an object. -/
def asStrOpt : UseVal → Option String
  | .str s => some s
  | _ => none

/-- The `use` array scan of `matchRuleSet` (src/src/index.ts:367-400):
string elements become records with that loader; object elements are spread
(their `loader` property, when a string, lands in the record); functions are
skipped.  `isUseItem := true`, `isOneOf := false`, siblings = the array. -/
def scanUseArr (m : Rec → Except JErr Bool) (arrId : Nat) :
    List UseItem → Nat → Except JErr (List Rec)
  | [], _ => .ok []
  | it :: rest, i => do
    let here ← match it with
      | .str s => do
          let r : Rec := ⟨some s, i, true, false, arrId⟩
          let b ← m r
          pure (if b then [r] else [])
      | .obj ro => do
          let r : Rec := ⟨asStrOpt ro.loader, i, true, false, arrId⟩
          let b ← m r
          pure (if b then [r] else [])
      | .fn => pure []
    let rest' ← scanUseArr m arrId rest (i + 1)
    .ok (here ++ rest')

/-- `matchRuleSet` (src/src/index.ts:361-425) on one invocation-field value.
`listId` is the id of the rules array the owning node sits in, `idx` the
node's index there.  `!use` rejects `undefined` and the empty string;
functions are skipped.  For a string value equal to the node's own `type`
the record's `loader` is `undefined` (src/src/index.ts:403). -/
def matchRuleSet (m : Rec → Except JErr Bool) (useV : UseVal) (listId idx : Nat)
    (r : Rule) (isOneOf : Bool) : Except JErr (List Rec) :=
  match useV with
  | .undef => .ok []
  | .fn => .ok []
  | .str s =>
      if s = "" then .ok []
      else do
        let rec0 : Rec := ⟨if r.rtype = some s then none else some s,
                           idx, false, isOneOf, listId⟩
        let b ← m rec0
        .ok (if b then [rec0] else [])
  | .obj ro => do
      let rec0 : Rec := ⟨asStrOpt ro.loader, idx, false, isOneOf, listId⟩
      let b ← m rec0
      .ok (if b then [rec0] else [])
  | .arr arrId items => scanUseArr m arrId items 0

/-- The `rule.type` field fed to `matchRuleSet` as the fourth invocation
field (src/src/index.ts:312). -/
def typeUse : Option String → UseVal
  | none => .undef
  | some s => .str s

/-- `typeof parentMatch === 'function'` combined with its application. -/
def gateBlocks (g : Option PGate) (r : Rule) (parent : Option Rule) : Bool :=
  match g with
  | some f => !(f r parent)
  | none => false

/-- The loop body of `findLoaderRule` (src/src/index.ts:289-325) over the
elements of the rules array with id `listId`, starting at index `i`.
Falsy elements are skipped; non-rule truthy junk contributes nothing (all
its field reads are `undefined`).  A node with a non-empty `oneOf`/`rules`
list, when a gate is supplied and the node carries conditions, is skipped
entirely (`continue`) if the gate rejects it; otherwise its four invocation
fields are scanned and then the walk recurses into `oneOf` (with
`isOneOf := true`, the node as parent) and into `rules` (with `false`).
`hasOneOfB r` (`hasRulesB r`) is unfolded into the pattern match on
`r.oneOf` (`r.rulesF`) that guards each recursion. -/
def goRules (m : Rec → Except JErr Bool) (g : Option PGate) (parent : Option Rule)
    (isOneOf : Bool) (listId : Nat) :
    List RElem → Nat → Except JErr (List Rec)
  | [], _ => .ok []
  | .null :: rest, i => goRules m g parent isOneOf listId rest (i + 1)
  | .strE _ :: rest, i => goRules m g parent isOneOf listId rest (i + 1)
  | .fnE :: rest, i => goRules m g parent isOneOf listId rest (i + 1)
  | .rule r :: rest, i =>
      if (hasOneOfB r || hasRulesB r) && g.isSome && hasRuleConditions r
          && gateBlocks g r parent then
        goRules m g parent isOneOf listId rest (i + 1)
      else do
        let f1 ← matchRuleSet m r.loader listId i r isOneOf
        let f2 ← matchRuleSet m r.useF listId i r isOneOf
        let f3 ← matchRuleSet m r.loaders listId i r isOneOf
        let f4 ← matchRuleSet m (typeUse r.rtype) listId i r isOneOf
        let c1 ← match h1 : r.oneOf with
          | some a =>
              if a.items.isEmpty then pure []
              else goRules m g (some r) true a.id a.items 0
          | none => pure []
        let c2 ← match h2 : r.rulesF with
          | some a =>
              if a.items.isEmpty then pure []
              else goRules m g (some r) false a.id a.items 0
          | none => pure []
        let rest' ← goRules m g parent isOneOf listId rest (i + 1)
        .ok (f1 ++ f2 ++ f3 ++ f4 ++ c1 ++ c2 ++ rest')
termination_by l _ => sizeOf l
decreasing_by
  all_goals simp_wf
  all_goals try omega
  all_goals
    first
    | (obtain ⟨lo, us, lds, ty, cs, oo, rr⟩ := r
       simp only [Rule.oneOf] at h1
       subst h1
       obtain ⟨aid, aitems⟩ := a
       simp only [SubArr.items]
       simp
       omega)
    | (obtain ⟨lo, us, lds, ty, cs, oo, rr⟩ := r
       simp only [Rule.rulesF] at h2
       subst h2
       obtain ⟨aid, aitems⟩ := a
       simp only [SubArr.items]
       simp
       omega)

/-- `findLoaderRule` on a whole rules array. -/
def findLoaderRule (m : Rec → Except JErr Bool) (g : Option PGate)
    (parent : Option Rule) (isOneOf : Bool) (a : SubArr) :
    Except JErr (List Rec) :=
  goRules m g parent isOneOf a.id a.items 0

/-- `findLoader` (src/src/index.ts:76-111): bail out with `[]` when
`config?.module?.rules` is not an array, otherwise compile the spec and walk
the tree with no parent, `isOneOf := false`. -/
def findLoader (env : Env) (spec : SpecM) (g : Option PGate) (cfg : Config) :
    Except JErr (List Rec) :=
  match cfg.module with
  | none => .ok []
  | some md =>
    match md.rules with
    | none => .ok []
    | some (topId, items) => do
        let m ← buildMatcher env spec
        goRules m g none false topId items 0

/-! ## JS numbers and `getPosition`

The position handler's return value is coerced with unary `+` and then
validated (src/src/index.ts:244-253).  The validation tests
`Number.isNaN(pos)`, whether `String(pos)` contains a `.`, and the range.
Numbers are modelled as exact decimals `a·10^e` (every value the claims
exercise is one, and JS prints a float as its shortest round-tripping
decimal, so the printed form is governed by that decimal). -/

/-- Number of decimal digits of `n` (1 for 0). -/
def digits10 (n : Nat) : Nat :=
  if n < 10 then 1 else 1 + digits10 (n / 10)
decreasing_by exact Nat.div_lt_self (by omega) (by omega)

/-- Strip factors of 10: `stripTens10 n = (s, d)` with `n = s * 10^d` and
`10 ∤ s` (for `n > 0`). -/
def stripTens10 (n : Nat) : Nat × Nat :=
  if h : n % 10 = 0 ∧ n ≠ 0 then
    let p := stripTens10 (n / 10)
    (p.1, p.2 + 1)
  else (n, 0)
decreasing_by exact Nat.div_lt_self (by omega) (by omega)

/-- Does ECMAScript `Number::toString` of the value `a·10^e` contain a `.`?
With shortest digits `s` (`k` digits) and decimal exponent `n` such that the
value is `s·10^(n-k)`: plain integer form for `k ≤ n ≤ 21` (no dot), fixed
notation with a dot for other `-6 < n ≤ 21`, exponent notation otherwise
(dot iff more than one digit). -/
def numHasDot (a e : Int) : Bool :=
  if a = 0 then false
  else
    let p := stripTens10 a.natAbs
    let k : Int := digits10 p.1
    let n : Int := e + p.2 + k
    if k ≤ n ∧ n ≤ 21 then false
    else if 0 < n ∧ n ≤ 21 then true
    else if -6 < n ∧ n ≤ 0 then true
    else decide (k ≠ 1)

/-- Compare the value `a·10^e` with the integer `m` by clearing the
denominator (exact decimal comparison, as JS float comparison is for the
values in play). -/
def decCmp (a e m : Int) : Ordering :=
  if 0 ≤ e then compare (a * 10 ^ e.toNat) m
  else compare a (m * 10 ^ (-e).toNat)

/-- Truncation toward zero of `a·10^e` (JS `ToIntegerOrInfinity`). -/
def decTrunc (a e : Int) : Int :=
  if 0 ≤ e then a * 10 ^ e.toNat else Int.tdiv a (10 ^ (-e).toNat)

/-- `(sign, rest)` of an optional leading sign. -/
def parseSign : List Char → Int × List Char
  | '-' :: rest => (-1, rest)
  | '+' :: rest => (1, rest)
  | cs => (1, cs)

/-- Value of a digit string. -/
def digitsToNat (l : List Char) : Nat :=
  l.foldl (fun acc c => acc * 10 + (c.toNat - 48)) 0

/-- Exponent part after `e`/`E`. -/
def parseExpTail (cs : List Char) : Option Int :=
  let sg := parseSign cs
  let ds := sg.2.span Char.isDigit
  if ds.1.isEmpty ∨ ¬ ds.2.isEmpty then none
  else some (sg.1 * (digitsToNat ds.1 : Int))

/-- Optional exponent suffix; `none` is a parse failure (NaN). -/
def parseExp : List Char → Option Int
  | [] => some 0
  | 'e' :: rest => parseExpTail rest
  | 'E' :: rest => parseExpTail rest
  | _ => none

/-- Fractional digits after an optional `.`. -/
def parseFrac : List Char → List Char × List Char
  | '.' :: rest => rest.span Char.isDigit
  | cs => ([], cs)

/-- JS `ToNumber` on a string, for decimal literals: trimmed empty string is
`0`; `[+-] digits [. digits] [eE [+-] digits]` otherwise; anything else is
NaN (`none`).  (Hex and `Infinity` forms are not modelled; no claim uses
them.) -/
def jsStrToNumber (s : String) : Option (Int × Int) :=
  let t := ((s.data.dropWhile Char.isWhitespace).reverse.dropWhile
    Char.isWhitespace).reverse
  if t = [] then some (0, 0)
  else
    let sg := parseSign t
    let d1 := sg.2.span Char.isDigit
    let d2 := parseFrac d1.2
    if d1.1.isEmpty ∧ d2.1.isEmpty then none
    else
      match parseExp d2.2 with
      | none => none
      | some e =>
          some (sg.1 * (digitsToNat (d1.1 ++ d2.1) : Int), e - (d2.1.length : Int))

/-- A JS value returned by a position handler: a (decimal) number, `NaN`
(which unary `+` also produces from `undefined` and junk objects), or a
string. -/
inductive PosVal where
  | num (a e : Int)
  | nan
  | str (s : String)

/-- `+handler(...)`: coerce the handler's return value to a number. -/
def coercePos : PosVal → Option (Int × Int)
  | .num a e => some (a, e)
  | .nan => none
  | .str s => jsStrToNumber s

/-- The message of the position usage error, naming the valid range. -/
def posMsg (l : Nat) : String :=
  "Position handler must return a integer value of number between -1 and "
    ++ toString l

/-- `getPosition`'s validation (src/src/index.ts:244-253) applied to the
coerced handler result `v` with `length` the sibling count: throw on NaN, on
a decimal point in `String(pos)`, and on values outside `[-1, length]`;
otherwise return the number. -/
def getPositionV (v : PosVal) (length : Nat) : Except JErr (Int × Int) :=
  match coercePos v with
  | none => .error (.thrown (posMsg length))
  | some (a, e) =>
      if numHasDot a e || decCmp a e (-1) == .lt || decCmp a e length == .gt then
        .error (.thrown (posMsg length))
      else .ok (a, e)

/-- A `PositionHandler`: `(index, length, isUseItem, isOneOf) -> value`. -/
def PosHandler := Int → Nat → Bool → Bool → PosVal

/-- `getPosition` (src/src/index.ts:244-253): invoke the handler and
validate. -/
def getPosition (h : PosHandler) (idx : Int) (length : Nat) (u o : Bool) :
    Except JErr (Int × Int) :=
  getPositionV (h idx length u o) length

/-! ## New entries, `getNewRule`, splice -/

/-- A `NewRuleItems` value the caller supplies (or a factory returns): a
string, an object, a function, or an array of such. -/
inductive NewVal where
  | str (s : String)
  | obj (r : Rule)
  | fnV
  | arrV (items : List NewVal)

/-- The `newRule` argument of `addLoader`: a value, or a factory invoked with
`(isUseItem, isOneOf)` (any function is treated as a factory,
src/src/index.ts:256). -/
inductive NewRule where
  | val (v : NewVal)
  | factory (f : Bool → Bool → NewVal)

/-- `getNewRule` (src/src/index.ts:255-273): invoke a factory, then validate
the shape against the insertion site.  For a use site, strings and functions
pass and objects (arrays included — `typeof [] === 'object'`) must carry a
string `loader`; for a rule site the value must be an object (arrays pass),
with falsy values (the empty string) also rejected. -/
def getNewRule (nr : NewRule) (isUse isOne : Bool) : Except JErr NewVal :=
  let rule := match nr with
    | .val v => v
    | .factory f => f isUse isOne
  if isUse then
    match rule with
    | .str s => .ok (.str s)
    | .fnV => .ok .fnV
    | .obj ro =>
        if (asStrOpt ro.loader).isSome then .ok (.obj ro)
        else .error (.thrown
          "RuleSetLoader must has an property of loader that is type of string")
    | .arrV _ => .error (.thrown
        "RuleSetLoader must has an property of loader that is type of string")
  else
    match rule with
    | .obj ro => .ok (.obj ro)
    | .arrV l => .ok (.arrV l)
    | _ => .error (.thrown "RuleSetRule must be an object")

/-- `Array.isArray(items) ? items : [items]` (src/src/index.ts:283-285). -/
def newItems : NewVal → List NewVal
  | .arrV l => l
  | v => [v]

/-- Store a validated new value in a `use` array.  (The `arrV` case cannot
reach a use site: `getNewRule` rejects arrays there.) -/
def toUseItem : NewVal → UseItem
  | .str s => .str s
  | .obj r => .obj r
  | .fnV => .fn
  | .arrV _ => .fn

/-- Store a new value in a rules array.  Non-object values (strings,
functions, nested arrays — possible only as elements of a bulk-insert array)
become inert truthy entries, which is how the walk treats them in JS. -/
def toRElem : NewVal → RElem
  | .obj r => .rule r
  | .str s => .strE s
  | .fnV => .fnE
  | .arrV _ => .fnE

/-- The actual index `Array.prototype.splice` uses for a (validated) numeric
position `a·10^e`: truncate, then clamp negatives to `max(len+t, 0)` and
positives to `min(t, len)`. -/
def spliceIdx (a e : Int) (len : Nat) : Nat :=
  let t := decTrunc a e
  if t < 0 then ((len : Int) + t).toNat
  else min t.toNat len

/-- `arr.splice(n, 0, ...items)` as a pure list operation. -/
def jsSplice (l : List α) (n : Nat) (items : List α) : List α :=
  l.take n ++ items ++ l.drop n

/-! ## Array identity: collecting, looking up and splicing arrays by id

A match record holds a reference to its sibling array; the model stores the
array's id and resolves it against the current tree, which is how the JS
reference semantics (mutation through a live array object) is reproduced for
alias-free trees (`Nodup` ids). -/

/-- One array occurring in a tree: a rules array or a `use` array. -/
inductive ArrEntry where
  | ra (id : Nat) (items : List RElem)
  | ua (id : Nat) (items : List UseItem)

/-- The id of an array entry. -/
def ArrEntry.aid : ArrEntry → Nat
  | .ra i _ => i
  | .ua i _ => i

mutual
/-- All arrays under a rule object, in depth-first field order. -/
def ruleArrs : Rule → List ArrEntry
  | .mk lo us lds _ _ oo rr =>
      useValArrs lo ++ useValArrs us ++ useValArrs lds ++ subArrs oo ++ subArrs rr

/-- All arrays under an optional nested rule array. -/
def subArrs : Option SubArr → List ArrEntry
  | some (.mk i items) => .ra i items :: relemsArrs items
  | none => []

/-- All arrays under the elements of a rules array. -/
def relemsArrs : List RElem → List ArrEntry
  | [] => []
  | e :: rest => relemArrs e ++ relemsArrs rest

/-- All arrays under one rules-array element. -/
def relemArrs : RElem → List ArrEntry
  | .rule r => ruleArrs r
  | _ => []

/-- All arrays under an invocation-field value. -/
def useValArrs : UseVal → List ArrEntry
  | .obj r => ruleArrs r
  | .arr i items => .ua i items :: useItemsArrs items
  | _ => []

/-- All arrays under the elements of a `use` array. -/
def useItemsArrs : List UseItem → List ArrEntry
  | [] => []
  | it :: rest => useItemArrs it ++ useItemsArrs rest

/-- All arrays under one `use`-array element. -/
def useItemArrs : UseItem → List ArrEntry
  | .obj r => ruleArrs r
  | _ => []
end

/-- All arrays of a configuration (the top rules array included). -/
def cfgArrs (cfg : Config) : List ArrEntry :=
  match cfg.module with
  | some md =>
    match md.rules with
    | some (i, items) => .ra i items :: relemsArrs items
    | none => []
  | none => []

/-- The ids of all arrays of a configuration; theorems about mutation assume
this list is `Nodup` (no array object appears twice in the tree). -/
def cfgIds (cfg : Config) : List Nat := (cfgArrs cfg).map ArrEntry.aid

/-- Select a rules array with id `j` from an entry. -/
def pickRA (j : Nat) : ArrEntry → Option (List RElem)
  | .ra i l => if i = j then some l else none
  | .ua _ _ => none

/-- Select a `use` array with id `j` from an entry. -/
def pickUA (j : Nat) : ArrEntry → Option (List UseItem)
  | .ua i l => if i = j then some l else none
  | .ra _ _ => none

/-- The current contents of the rules array with id `j`. -/
def lookupRA (cfg : Config) (j : Nat) : Option (List RElem) :=
  ((cfgArrs cfg).filterMap (pickRA j)).head?

/-- The current contents of the `use` array with id `j`. -/
def lookupUA (cfg : Config) (j : Nat) : Option (List UseItem) :=
  ((cfgArrs cfg).filterMap (pickUA j)).head?

/-- A pending `splice(n, 0, ...)` into the array with id `id` (`isUse` tells
which kind): `newR`/`newU` are the inserted elements in the two renderings. -/
structure SpliceTgt where
  isUse : Bool
  id : Nat
  n : Nat
  newR : List RElem
  newU : List UseItem

mutual
/-- Apply a pending splice to every matching array under a rule. -/
def ruleSpl (t : SpliceTgt) : Rule → Rule
  | .mk lo us lds ty cs oo rr =>
      .mk (useValSpl t lo) (useValSpl t us) (useValSpl t lds) ty cs
        (subSpl t oo) (subSpl t rr)

/-- Apply a pending splice under an optional nested rule array. -/
def subSpl (t : SpliceTgt) : Option SubArr → Option SubArr
  | some (.mk i items) =>
      let items' := relemsSpl t items
      some (.mk i (if !t.isUse && i == t.id then jsSplice items' t.n t.newR else items'))
  | none => none

/-- Apply a pending splice under the elements of a rules array. -/
def relemsSpl (t : SpliceTgt) : List RElem → List RElem
  | [] => []
  | e :: rest => relemSpl t e :: relemsSpl t rest

/-- Apply a pending splice under one rules-array element. -/
def relemSpl (t : SpliceTgt) : RElem → RElem
  | .rule r => .rule (ruleSpl t r)
  | e => e

/-- Apply a pending splice under an invocation-field value. -/
def useValSpl (t : SpliceTgt) : UseVal → UseVal
  | .obj r => .obj (ruleSpl t r)
  | .arr i items =>
      let items' := useItemsSpl t items
      .arr i (if t.isUse && i == t.id then jsSplice items' t.n t.newU else items')
  | v => v

/-- Apply a pending splice under the elements of a `use` array. -/
def useItemsSpl (t : SpliceTgt) : List UseItem → List UseItem
  | [] => []
  | it :: rest => useItemSpl t it :: useItemsSpl t rest

/-- Apply a pending splice under one `use`-array element. -/
def useItemSpl (t : SpliceTgt) : UseItem → UseItem
  | .obj r => .obj (ruleSpl t r)
  | it => it
end

/-- The kind-tagged reference of an array entry (`true` for a `use` array). -/
def ArrEntry.ref : ArrEntry → Bool × Nat
  | .ra i _ => (false, i)
  | .ua i _ => (true, i)

/-- The length of an array entry's contents. -/
def ArrEntry.len : ArrEntry → Nat
  | .ra _ l => l.length
  | .ua _ l => l.length

/-- The array reference held by a match record. -/
def Rec.ref (rec : Rec) : Bool × Nat := (rec.isUseItem, rec.sib)

/-- Two records of the same sibling collection appear in weakly ascending
index order. -/
def sameRefAsc (r1 r2 : Rec) : Prop := r1.ref = r2.ref → r1.index ≤ r2.index

/-- The effect of a pending splice on one collected array entry. -/
def entrySpl (t : SpliceTgt) : ArrEntry → ArrEntry
  | .ra i l => .ra i (if !t.isUse && i == t.id then
      jsSplice (relemsSpl t l) t.n t.newR else relemsSpl t l)
  | .ua i l => .ua i (if t.isUse && i == t.id then
      jsSplice (useItemsSpl t l) t.n t.newU else useItemsSpl t l)

/-- Apply a pending splice to a configuration. -/
def cfgSpl (t : SpliceTgt) (cfg : Config) : Config :=
  match cfg.module with
  | some md =>
    match md.rules with
    | some (i, items) =>
        let items' := relemsSpl t items
        ⟨some ⟨some (i, if !t.isUse && i == t.id then jsSplice items' t.n t.newR
                        else items')⟩⟩
    | none => cfg
  | none => cfg

/-! ## The mutator: `addLoader` and its wrappers -/

/-- The record's sibling array exists in the tree (under the record's kind)
and the record's index is inside it. -/
def validIn (cfg : Config) (rec : Rec) : Prop :=
  if rec.isUseItem then
    ∃ l, lookupUA cfg rec.sib = some l ∧ rec.index < l.length
  else
    ∃ l, lookupRA cfg rec.sib = some l ∧ rec.index < l.length

/-- The entry `X` sits immediately after the record's original index in the
record's (current) sibling collection. -/
def insertedAfter (cfg : Config) (rec : Rec) (X : NewVal) : Prop :=
  if rec.isUseItem then
    ((lookupUA cfg rec.sib).getD [])[rec.index + 1]? = some (toUseItem X)
  else
    ((lookupRA cfg rec.sib).getD [])[rec.index + 1]? = some (toRElem X)

/-- `X` is a single new entry (not an array, not a factory) containing no
array values — the shape of a fresh object/string literal, whose insertion
introduces no aliasing. -/
def entryClean : NewVal → Bool
  | .str _ => true
  | .fnV => true
  | .obj r => (ruleArrs r).isEmpty
  | .arrV _ => false

/-- `siblings.length` read through the record's array reference against the
current tree. -/
def sibLen (cfg : Config) (rec : Rec) : Nat :=
  if rec.isUseItem then ((lookupUA cfg rec.sib).getD []).length
  else ((lookupRA cfg rec.sib).getD []).length

/-- The per-record loop of `addLoader` (src/src/index.ts:128-133): for each
record, in found order, read the live sibling length, compute and validate
the position, skip on `-1`, otherwise materialize the new entry
(`getNewRule`) and splice it in (`addNewLoader`,
src/src/index.ts:275-287). -/
def addLoaderGo (nr : NewRule) (h : PosHandler) :
    List Rec → Config → Except JErr Config
  | [], cfg => .ok cfg
  | rec :: rest, cfg => do
      let len := sibLen cfg rec
      let pos ← getPosition h (rec.index : Int) len rec.isUseItem rec.isOneOf
      let cfg' ←
        if decCmp pos.1 pos.2 (-1) == .eq then pure cfg
        else do
          let v ← getNewRule nr rec.isUseItem rec.isOneOf
          pure (cfgSpl
            { isUse := rec.isUseItem, id := rec.sib,
              n := spliceIdx pos.1 pos.2 len,
              newR := (newItems v).map toRElem,
              newU := (newItems v).map toUseItem } cfg)
      addLoaderGo nr h rest cfg'

/-- The id used for the fresh top-level rules array the fallback creates
(`{ rules: [] }`, src/src/index.ts:135).  The array is new, so any id works
for the claims, which never compare it with existing ids. -/
def freshTopId : Nat := 0

/-- `config.module = module` when `config.module` was absent
(src/src/index.ts:135-139): the default `{ rules: [] }` object, with its
fresh array, is attached. -/
def ensureModule (cfg : Config) : Config :=
  match cfg.module with
  | none => ⟨some ⟨some (freshTopId, [])⟩⟩
  | some _ => cfg

/-- The length of the `rules` local of the fallback branch
(`const { rules = [] } = module`): the top array's length, or `0` for the
fresh default. -/
def fallbackLen (cfg : Config) : Nat :=
  match cfg.module with
  | some md =>
    match md.rules with
    | some (_, items) => items.length
    | none => 0
  | none => 0

/-- The fallback splice (src/src/index.ts:142).  When the configuration had
no `module`, the created array (now attached) receives the items; when
`module` exists and holds a rules array, that array does; when `module`
exists but `module.rules` is absent, the destructuring default `[]` is a
fresh array that is never attached, so the splice is lost and the
configuration is unchanged. -/
def spliceFallback (cfg : Config) (n : Nat) (items : List RElem) : Config :=
  match cfg.module with
  | none => ⟨some ⟨some (freshTopId, jsSplice [] n items)⟩⟩
  | some md =>
    match md.rules with
    | some (i, l) => ⟨some ⟨some (i, jsSplice l n items)⟩⟩
    | none => cfg

/-- `addLoader` (src/src/index.ts:120-145). -/
def addLoader (env : Env) (spec : SpecM) (nr : NewRule) (h : PosHandler)
    (cfg : Config) : Except JErr Config := do
  let matched ← findLoader env spec none cfg
  if matched.isEmpty then do
    let len := fallbackLen cfg
    let cfg1 := ensureModule cfg
    let pos ← getPosition h (-1) len false false
    if decCmp pos.1 pos.2 (-1) == .eq then pure cfg1
    else do
      let v ← getNewRule nr false false
      pure (spliceFallback cfg1 (spliceIdx pos.1 pos.2 len)
        ((newItems v).map toRElem))
  else
    addLoaderGo nr h matched cfg

/-- The position handler of `addLoaderBefore` (src/src/index.ts:155):
`x === -1 ? 0 : x`. -/
def beforeHandler : PosHandler := fun i _ _ _ =>
  if i = -1 then .num 0 0 else .num i 0

/-- The position handler of `addLoaderAfter` (src/src/index.ts:166):
`args[0] === -1 ? args[1] : args[0] + 1`. -/
def afterHandler : PosHandler := fun i len _ _ =>
  if i = -1 then .num (len : Int) 0 else .num (i + 1) 0

/-- `addLoaderBefore` (src/src/index.ts:154-156). -/
def addLoaderBefore (env : Env) (spec : SpecM) (nr : NewRule) (cfg : Config) :
    Except JErr Config :=
  addLoader env spec nr beforeHandler cfg

/-- `addLoaderAfter` (src/src/index.ts:165-167). -/
def addLoaderAfter (env : Env) (spec : SpecM) (nr : NewRule) (cfg : Config) :
    Except JErr Config :=
  addLoader env spec nr afterHandler cfg

/-! ## Convenience builders for concrete scenarios -/

/-- Build a rule with only some fields set (the rest absent, as in a JS
object literal). -/
def Rule.make (loader : UseVal := .undef) (useF : UseVal := .undef)
    (loaders : UseVal := .undef) (rtype : Option String := none)
    (conds : Conds := {}) (oneOf : Option SubArr := none)
    (rulesF : Option SubArr := none) : Rule :=
  .mk loader useF loaders rtype conds oneOf rulesF

/-- An environment in which nothing resolves and no `package.json` exists. -/
def bareEnv : Env :=
  { cwd := ["w"], resolve := fun _ => none,
    hasPkg := fun _ => false, manifest := fun _ => .unreadable }

/-- A rule `{ loader: "x" }`. -/
def ruleX : Rule := Rule.make (.str "x")

/-- A rule `{ loader: "y" }`. -/
def ruleY : Rule := Rule.make (.str "y")

/-- The new entry `{ loader: "y" }` used in concrete mutation scenarios. -/
def entryY : NewVal := .obj ruleY

/-- A configuration whose top rules array (id 1) holds two rules with loader
`"x"`: two matches in the same sibling collection. -/
def cfgTwoX : Config := ⟨some ⟨some (1, [.rule ruleX, .rule ruleX])⟩⟩

/-- The claim C4 tree `{oneOf: [{test:/a/, loader:"x"}, {test:/b/, loader:"x"}]}`:
the `oneOf` array has id 2, the top rules array id 1. -/
def cfgC4 : Config :=
  ⟨some ⟨some (1, [.rule (Rule.make .undef .undef .undef none
    { test := .undef } (some (.mk 2
      [.rule (Rule.make (.str "x") .undef .undef none { test := .regex }),
       .rule (Rule.make (.str "x") .undef .undef none { test := .regex })]))
    none)])⟩⟩

/-- The two records `findLoader` produces on `cfgC4`. -/
def recsC4 : List Rec :=
  [⟨some "x", 0, false, true, 2⟩, ⟨some "x", 1, false, true, 2⟩]

/-- The claim C2 rule: a condition (`test` regex), a loader `"x"` of its
own, and a non-empty `oneOf` list (id 2) holding a rule with loader `"z"`. -/
def ruleC2 : Rule :=
  Rule.make (.str "x") .undef .undef none { test := .regex }
    (some (.mk 2 [.rule (Rule.make (.str "z"))])) none

/-- The claim C2 tree: `ruleC2` as the only top-level rule. -/
def cfgC2 : Config := ⟨some ⟨some (1, [.rule ruleC2])⟩⟩

/-- A rule with a condition, an *empty* `oneOf` array (id 5) and loader
`"x"`: the C10 shape (no non-empty sub-list, conditions present). -/
def ruleC10 : Rule :=
  Rule.make (.str "x") .undef .undef none { test := .regex }
    (some (.mk 5 [])) none

/-- A rule whose loader field equals its own `type` tag (`"x"`): the C7
collision shape. -/
def ruleC7 : Rule := Rule.make (.str "x") .undef .undef (some "x")

/-- The claim C8 tree: one rule whose loader `"bbb"` does not resolve. -/
def cfgC8 : Config := ⟨some ⟨some (1, [.rule (Rule.make (.str "bbb"))])⟩⟩

/-- A configuration with `module` present but `module.rules` absent. -/
def cfgEmptyModule : Config := ⟨some ⟨none⟩⟩

/-- A configuration with no `module` at all. -/
def cfgNoModule : Config := ⟨none⟩

/-- A position handler constantly returning `-1` ("skip this insertion"). -/
def neg1Handler : PosHandler := fun _ _ _ _ => .num (-1) 0

/-- Where a record produced by the walk of one rules array can point: either
at that array itself (with an index in the scanned range), or at an array
collected below one of the elements (with an index inside that array). -/
def recProv (listId : Nat) (items : List RElem) (i : Nat) (rec : Rec) : Prop :=
  (rec.ref = (false, listId) ∧ i ≤ rec.index ∧ rec.index < i + items.length)
  ∨ ∃ e ∈ relemsArrs items, rec.ref = e.ref ∧ rec.index < e.len

/-! ## Claim theorems -/

unseal stripTens10 digits10 in
/-- Helper: `-1` always passes position validation. -/
theorem getPositionV_neg1 (len : Nat) : getPositionV (.num (-1) 0) len = .ok (-1, 0) := by
  have hd : numHasDot (-1) 0 = false := rfl
  have he : decCmp (-1) 0 (-1) = .eq := rfl
  have hg : (decCmp (-1) 0 (len : Int) == .gt) = false := by
    simp only [decCmp, compare, instOrdInt, compareOfLessAndEq]
    norm_num
    split
    · rfl
    · split
      · rfl
      · omega
  unfold getPositionV coercePos
  simp [hd, he, hg]
  rfl

/-- Helper: with a constant `-1` position handler the per-record loop leaves
the configuration untouched and reports no error. -/
theorem addLoaderGo_neg1 (nr : NewRule) (recs : List Rec) (cfg : Config) :
    addLoaderGo nr neg1Handler recs cfg = .ok cfg := by
  induction recs generalizing cfg with
  | nil => rfl
  | cons rec rest ih =>
      have he : (decCmp (-1) 0 (-1) == Ordering.eq) = true := rfl
      rw [addLoaderGo]
      simp [getPosition, neg1Handler, getPositionV_neg1, bind, Except.bind,
        pure, Except.pure, he, ih]

unseal goRules gpnLoop in
/-- C2, counterexample.  The claim says that when the parent gate rejects a
node that has a non-empty sub-list and a condition, the node's invocation
fields are still scanned and only the recursion is skipped.  On `cfgC2` the
gated node has loader `"x"`, a `test` condition and a non-empty `oneOf`; with
an always-`false` gate the locator returns no record at all — the `continue`
at src/src/index.ts:308 skips the field scan too.  Without the gate the same
tree yields the loader-field record (and the nested one), so the emptiness is
the gate's doing. -/
theorem c2_counterexample :
    findLoader bareEnv (.str "x") (some fun _ _ => false) cfgC2 = .ok []
    ∧ findLoader bareEnv (.str "x") none cfgC2 =
        .ok [⟨some "x", 0, false, false, 1⟩, ⟨some "z", 0, false, true, 2⟩] :=
  ⟨rfl, rfl⟩

unseal goRules gpnLoop stripTens10 digits10 in
/-- C3: the fallback of `addLoader` loses the new entry when `module` exists
without a `rules` array.  On `{ module: {} }` with nothing matching,
`addLoaderBefore` completes without error and returns the configuration
unchanged — the destructuring default `const { rules = [] } = module` is a
fresh array that is never attached, so `module.rules` still does not contain
the entry.  The second conjunct shows the intended behavior does happen when
`module` itself is absent (the created `{ rules: [] }` is attached and
receives the entry at index 0). -/
theorem c3_theorem :
    addLoaderBefore bareEnv (.str "x") (.val entryY) cfgEmptyModule =
      .ok cfgEmptyModule
    ∧ addLoaderBefore bareEnv (.str "x") (.val entryY) cfgNoModule =
        .ok ⟨some ⟨some (freshTopId, [.rule ruleY])⟩⟩ :=
  ⟨rfl, rfl⟩

unseal goRules gpnLoop in
/-- C4, counterexample.  The claim says each of the two records carries a
1-element sibling collection; in fact both records reference the shared
`oneOf` array (id 2), whose length is 2. -/
theorem c4_counterexample :
    findLoader bareEnv (.str "x") none cfgC4 = .ok recsC4
    ∧ recsC4.all (fun rec => sibLen cfgC4 rec == 2) = true :=
  ⟨rfl, rfl⟩

unseal goRules gpnLoop in
/-- C4, amended.  Locating stage `"x"` on the C4 tree returns exactly two
records, one per alternation branch (indices 0 and 1, `isOneOf := true`), and
both records' sibling collection is the shared 2-element `oneOf` array
itself, not a fresh 1-element list per branch. -/
theorem c4_theorem :
    findLoader bareEnv (.str "x") none cfgC4 = .ok recsC4
    ∧ (lookupRA cfgC4 2).map List.length = some 2 :=
  ⟨rfl, rfl⟩

unseal goRules gpnLoop stripTens10 digits10 in
/-- C5, counterexample.  The claim says a fractional position-function return
raises a usage error.  The fractional value `1e-7` (whose `String` form,
`"1e-7"`, contains no `.`) passes validation: on a 2-element sibling
collection `addLoader` completes without error and splices at the truncated
index 0 for both matches. -/
theorem c5_counterexample :
    addLoader bareEnv (.str "x") (.val entryY)
      (fun _ _ _ _ => .num 1 (-7)) cfgTwoX =
    .ok ⟨some ⟨some (1, [.rule ruleY, .rule ruleY, .rule ruleX, .rule ruleX])⟩⟩ :=
  rfl

unseal gpnLoop in
/-- C6: the package-name walk does not terminate for every input.  With no
`package.json` anywhere and a working directory other than `/`, the walk
from `/a/b` reaches the root, where `path.dirname` is a fixpoint and neither
exit test fires — the loop spins forever (the root check of
src/src/index.ts:438 sits after the loop).  With a `package.json` at the
root the same walk terminates (and the post-loop root check yields `''`). -/
theorem c6_theorem :
    getPackageName bareEnv "/a/b" = .error .diverge
    ∧ getPackageName
        { cwd := ["w"], resolve := fun _ => none,
          hasPkg := fun d => d == [], manifest := fun _ => .name "root" }
        "/a/b" = .ok (some "") :=
  ⟨rfl, rfl⟩

unseal goRules gpnLoop in
/-- C8: a string match specification that fails module resolution matches an
unrelated loader that also fails resolution.  `"aaa"` and `"bbb"` both
resolve to `""`; `isSamePath "" ""` holds, so the single (unrelated) rule is
returned as a match. -/
theorem c8_theorem :
    resolveLoaderPath bareEnv "aaa" = ""
    ∧ resolveLoaderPath bareEnv "bbb" = ""
    ∧ findLoader bareEnv (.str "aaa") none cfgC8 =
        .ok [⟨some "bbb", 0, false, false, 1⟩] :=
  ⟨rfl, rfl, rfl⟩

unseal goRules gpnLoop stripTens10 digits10 in
/-- C9: position validation accepts non-integer handler returns.  The
numeric string `"2"` is coerced by unary `+` and accepted; the fraction
`1e-7` is accepted because non-integers are detected only via a `.` in the
value's string form and `String(1e-7) = "1e-7"` has none.  Both are passed
on to `splice`: with a constant `"2"` handler the entry lands at index 2 of
the 2-element collection, with `1e-7` at the truncated index 0. -/
theorem c9_theorem :
    getPositionV (.str "2") 2 = .ok (2, 0)
    ∧ getPositionV (.num 1 (-7)) 2 = .ok (1, -7)
    ∧ addLoader bareEnv (.str "x") (.val entryY)
        (fun _ _ _ _ => .str "2") cfgTwoX =
        .ok ⟨some ⟨some (1, [.rule ruleX, .rule ruleX, .rule ruleY, .rule ruleY])⟩⟩
    ∧ addLoader bareEnv (.str "x") (.val entryY)
        (fun _ _ _ _ => .num 1 (-7)) cfgTwoX =
        .ok ⟨some ⟨some (1, [.rule ruleY, .rule ruleY, .rule ruleX, .rule ruleX])⟩⟩ :=
  ⟨rfl, rfl, rfl, rfl⟩

/-- C2, amended.  When a node has a non-empty `oneOf`/`rules` list, a parent
gate is supplied and the node carries at least one condition, a `false` gate
answer skips the node *entirely*: neither its invocation fields are scanned
nor its sub-lists recursed — processing continues with the next sibling
(`continue`, src/src/index.ts:306-310). -/
theorem c2_theorem (m : Rec → Except JErr Bool) (g : PGate) (parent : Option Rule)
    (b : Bool) (listId i : Nat) (r : Rule) (rest : List RElem)
    (hsub : (hasOneOfB r || hasRulesB r) = true)
    (hcond : hasRuleConditions r = true)
    (hgate : g r parent = false) :
    goRules m (some g) parent b listId (.rule r :: rest) i =
      goRules m (some g) parent b listId rest (i + 1) := by
  rw [goRules]
  simp [hsub, hcond, hgate, gateBlocks]

/-- C2, witness: the gated `ruleC2` node contributes nothing (the walk moves
straight past it). -/
theorem c2_witness :
    goRules (fun _ => .ok true) (some fun _ _ => false) none false 1
        [.rule ruleC2] 0 =
      goRules (fun _ => .ok true) (some fun _ _ => false) none false 1 [] 1 :=
  c2_theorem _ _ _ _ _ _ _ _ rfl rfl rfl

/-- C5, amended.  `getPosition` raises the usage error (whose message names
`-1` and the sibling length) exactly on NaN, on values whose decimal string
form contains a `.`, and on values outside `[-1, length]`; a returned `-1`
makes the whole mutation a no-op without error.  (As C9 records, dot-free
fractions such as `1e-7` are *not* rejected, which is what corrects the
claim's "rejects every fractional value".) -/
theorem c5_theorem :
    (∀ (len : Nat), getPositionV .nan len = .error (.thrown (posMsg len)))
    ∧ (∀ (a e : Int) (len : Nat),
        numHasDot a e = true ∨ decCmp a e (-1) = .lt ∨ decCmp a e len = .gt →
        getPositionV (.num a e) len = .error (.thrown (posMsg len)))
    ∧ (∀ (env : Env) (spec : SpecM) (nr : NewRule) (cfg : Config) (recs : List Rec),
        findLoader env spec none cfg = .ok recs →
        addLoader env spec nr neg1Handler cfg =
          .ok (if recs.isEmpty then ensureModule cfg else cfg)) := by
  refine ⟨fun len => rfl, fun a e len h => ?_, fun env spec nr cfg recs hf => ?_⟩
  · unfold getPositionV coercePos
    have hc : (numHasDot a e || decCmp a e (-1) == Ordering.lt
        || decCmp a e (len : Int) == Ordering.gt) = true := by
      rcases h with h | h | h
      · simp [h]
      · rw [h]; simp; exact Or.inl (Or.inr rfl)
      · rw [h]; simp; exact Or.inr rfl
    simp [hc]
  · have he : (decCmp (-1) 0 (-1) == Ordering.eq) = true := rfl
    unfold addLoader
    simp only [hf, bind, Except.bind]
    by_cases hre : recs.isEmpty
    · simp [hre, getPosition, neg1Handler, getPositionV_neg1, bind, Except.bind,
        pure, Except.pure, he]
    · simp [hre, addLoaderGo_neg1]

unseal goRules gpnLoop stripTens10 digits10 in
/-- C5, witness: `2.5` and `99` on a 2-element collection raise the error
naming `[-1, 2]`, and a constant `-1` handler leaves `cfgTwoX` unchanged
without error. -/
theorem c5_witness :
    getPositionV (.num 25 (-1)) 2 = .error (.thrown (posMsg 2))
    ∧ getPositionV (.num 99 0) 2 = .error (.thrown (posMsg 2))
    ∧ addLoader bareEnv (.str "x") (.val entryY) neg1Handler cfgTwoX =
        .ok cfgTwoX :=
  ⟨c5_theorem.2.1 25 (-1) 2 (Or.inl rfl),
   c5_theorem.2.1 99 0 2 (Or.inr (Or.inr rfl)),
   c5_theorem.2.2 bareEnv (.str "x") (.val entryY) cfgTwoX
     [⟨some "x", 0, false, false, 1⟩, ⟨some "x", 1, false, false, 1⟩] rfl⟩

/-- C7: a rule whose invocation-field value is a string equal to the node's
own `type` tag produces a candidate whose resolved stage identity is absent
(`loader := undefined`, src/src/index.ts:403), and the compiled string
matcher (which requires `typeof loader === 'string'`) therefore never
matches such a candidate: the scan of that field yields no record, whatever
the spec resolved to. -/
theorem c7_theorem (env : Env) (lp : String) (ln : Option String)
    (listId idx : Nat) (r : Rule) (b : Bool) (s : String)
    (ht : r.rtype = some s) :
    matchRuleSet (wrapMatcher env (strMatchPred env lp ln)) (.str s)
      listId idx r b = .ok [] := by
  unfold matchRuleSet
  by_cases hs : s = ""
  · simp [hs]
  · simp [hs, ht, wrapMatcher, strMatchPred, bind, Except.bind, pure,
      Except.pure, Option.map]

/-- C7, witness: the collision rule (`loader: "x", type: "x"`) yields no
record from its loader field under a string matcher. -/
theorem c7_witness :
    matchRuleSet (wrapMatcher bareEnv (strMatchPred bareEnv "" (some "")))
      (.str "x") 1 0 ruleC7 false = .ok [] :=
  c7_theorem bareEnv "" (some "") 1 0 ruleC7 false "x" rfl

/-- C10: a rule node with no non-empty `oneOf` and no non-empty `rules`
(absent fields and empty arrays alike) is processed identically for every
gate — the gate is never invoked — and its four invocation fields are always
scanned, conditions or not: the node's contribution is exactly the
four-field scan. -/
theorem c10_theorem (m : Rec → Except JErr Bool) (g : Option PGate)
    (parent : Option Rule) (b : Bool) (listId i : Nat) (r : Rule)
    (h1 : hasOneOfB r = false) (h2 : hasRulesB r = false) :
    goRules m g parent b listId [.rule r] i = (do
      let f1 ← matchRuleSet m r.loader listId i r b
      let f2 ← matchRuleSet m r.useF listId i r b
      let f3 ← matchRuleSet m r.loaders listId i r b
      let f4 ← matchRuleSet m (typeUse r.rtype) listId i r b
      .ok (f1 ++ f2 ++ f3 ++ f4)) := by
  rw [goRules]
  rw [goRules]
  simp only [h1, h2, Bool.false_or, Bool.false_and, Bool.and_false, if_neg,
    Bool.false_eq_true, not_false_iff]
  cases ho : r.oneOf with
  | none =>
    cases hr : r.rulesF with
    | none => simp [bind, Except.bind, pure, Except.pure]
    | some a2 =>
      have e2 : a2.items.isEmpty = true := by
        unfold hasRulesB at h2; rw [hr] at h2; simpa using h2
      simp [bind, Except.bind, pure, Except.pure, e2]
  | some a1 =>
    have e1 : a1.items.isEmpty = true := by
      unfold hasOneOfB at h1; rw [ho] at h1; simpa using h1
    cases hr : r.rulesF with
    | none => simp [bind, Except.bind, pure, Except.pure, e1]
    | some a2 =>
      have e2 : a2.items.isEmpty = true := by
        unfold hasRulesB at h2; rw [hr] at h2; simpa using h2
      simp [bind, Except.bind, pure, Except.pure, e1, e2]

/-- C10, witness: `ruleC10` carries a condition and an empty `oneOf` array,
and with an (always-rejecting) gate supplied its processing still equals the
plain four-field scan — the gate was never consulted. -/
theorem c10_witness :
    goRules (fun _ => .ok true) (some fun _ _ => false) none false 1
        [.rule ruleC10] 0 = (do
      let f1 ← matchRuleSet (fun _ => .ok true) ruleC10.loader 1 0 ruleC10 false
      let f2 ← matchRuleSet (fun _ => .ok true) ruleC10.useF 1 0 ruleC10 false
      let f3 ← matchRuleSet (fun _ => .ok true) ruleC10.loaders 1 0 ruleC10 false
      let f4 ← matchRuleSet (fun _ => .ok true) (typeUse ruleC10.rtype) 1 0
        ruleC10 false
      .ok (f1 ++ f2 ++ f3 ++ f4)) :=
  c10_theorem _ _ _ _ _ _ _ rfl rfl

/-! ### C1 groundwork: monad, splice and transformation lemmas -/

/-- Split a successful `Except` bind. -/
theorem bind_ok {α β : Type} {x : Except JErr α} {f : α → Except JErr β}
    {out : β} (h : (x >>= f) = .ok out) : ∃ v, x = .ok v ∧ f v = .ok out := by
  cases x with
  | ok v => exact ⟨v, rfl, h⟩
  | error e => simp [bind, Except.bind] at h

/-- `relemsSpl` is an elementwise map. -/
theorem relemsSpl_map (t : SpliceTgt) (l : List RElem) :
    relemsSpl t l = l.map (relemSpl t) := by
  induction l with
  | nil => rfl
  | cons e rest ih => rw [relemsSpl, ih]; rfl

/-- `useItemsSpl` is an elementwise map. -/
theorem useItemsSpl_map (t : SpliceTgt) (l : List UseItem) :
    useItemsSpl t l = l.map (useItemSpl t) := by
  induction l with
  | nil => rfl
  | cons e rest ih => rw [useItemsSpl, ih]; rfl

/-- `relemsArrs` distributes over append. -/
theorem relemsArrs_append (l1 l2 : List RElem) :
    relemsArrs (l1 ++ l2) = relemsArrs l1 ++ relemsArrs l2 := by
  induction l1 with
  | nil => rfl
  | cons e rest ih => simp [relemsArrs, ih]

/-- `useItemsArrs` distributes over append. -/
theorem useItemsArrs_append (l1 l2 : List UseItem) :
    useItemsArrs (l1 ++ l2) = useItemsArrs l1 ++ useItemsArrs l2 := by
  induction l1 with
  | nil => rfl
  | cons e rest ih => simp [useItemsArrs, ih]

/-- Splicing array-free items into a rules array does not change the set of
arrays below it. -/
theorem relemsArrs_splice (l items : List RElem) (n : Nat)
    (h : relemsArrs items = []) :
    relemsArrs (jsSplice l n items) = relemsArrs l := by
  unfold jsSplice
  rw [relemsArrs_append, relemsArrs_append, h, List.append_nil,
    ← relemsArrs_append, List.take_append_drop]

/-- Splicing array-free items into a `use` array does not change the set of
arrays below it. -/
theorem useItemsArrs_splice (l items : List UseItem) (n : Nat)
    (h : useItemsArrs items = []) :
    useItemsArrs (jsSplice l n items) = useItemsArrs l := by
  unfold jsSplice
  rw [useItemsArrs_append, useItemsArrs_append, h, List.append_nil,
    ← useItemsArrs_append, List.take_append_drop]

/-- Reading strictly below the splice point is unaffected. -/
theorem jsSplice_get_lt {α : Type} (l items : List α) (p q : Nat)
    (hq : q < p) (hp : p ≤ l.length) :
    (jsSplice l p items)[q]? = l[q]? := by
  unfold jsSplice
  have h1 : q < (l.take p).length := by
    simp [List.length_take]
    omega
  have h2 : q < (l.take p ++ items).length := by
    simp [List.length_take]
    omega
  rw [List.getElem?_append_left h2, List.getElem?_append_left h1,
    List.getElem?_take_of_lt hq]

/-- Reading at the splice point yields the first inserted item. -/
theorem jsSplice_get_self {α : Type} (l : List α) (x : α) (items : List α)
    (p : Nat) (hp : p ≤ l.length) :
    (jsSplice l p (x :: items))[p]? = some x := by
  unfold jsSplice
  have h1 : (l.take p).length = p := by simp [List.length_take]; omega
  have h2 : p < (l.take p ++ x :: items).length := by
    simp [List.length_take]
    omega
  rw [List.getElem?_append_left h2, List.getElem?_append_right (by omega),
    h1]
  simp

/-- The length after a splice (at a valid position). -/
theorem jsSplice_length {α : Type} (l items : List α) (p : Nat)
    (hp : p ≤ l.length) :
    (jsSplice l p items).length = l.length + items.length := by
  unfold jsSplice
  simp [List.length_take, List.length_drop]
  omega

/-- A validated `afterHandler` position on a record index is `index + 1`. -/
theorem spliceIdx_after (i len : Nat) (h : i + 1 ≤ len) :
    spliceIdx ((i : Int) + 1) 0 len = i + 1 := by
  unfold spliceIdx decTrunc
  have h0 : ¬((i : Int) + 1 < 0) := by omega
  simp [h0]
  omega

/-- `index + 1` is never the skip sentinel `-1`. -/
theorem decCmp_succ_ne_eq (i : Nat) :
    (decCmp ((i : Int) + 1) 0 (-1) == Ordering.eq) = false := by
  simp only [decCmp, compare, instOrdInt, compareOfLessAndEq]
  norm_num
  have h1 : ¬((i : Int) + 1 < -1) := by omega
  have h2 : ¬((i : Int) + 1 = -1) := by omega
  rw [if_neg h1, if_neg h2]
  rfl

/-- A successful `getPositionV` on a number returns that number. -/
theorem getPositionV_num_ok {a e : Int} {len : Nat} {pos : Int × Int}
    (h : getPositionV (.num a e) len = .ok pos) : pos = (a, e) := by
  unfold getPositionV coercePos at h
  dsimp only at h
  split at h
  · cases h
  · cases h
    rfl

/-- A successful `getNewRule` on a plain value returns that value. -/
theorem getNewRule_val_ok {X v : NewVal} {u o : Bool}
    (h : getNewRule (.val X) u o = .ok v) : v = X := by
  unfold getNewRule at h
  cases u <;> cases X <;> simp_all <;>
    first
    | rfl
    | (rename_i r; revert h; split <;> intro h <;> simp_all)

/-- A clean entry is a one-element insertion. -/
theorem newItems_clean {X : NewVal} (h : entryClean X = true) :
    newItems X = [X] := by
  cases X <;> simp_all [entryClean, newItems]

/-- A pending splice whose inserted items carry no arrays transforms the
collected array list pointwise: every entry keeps its id and kind, the
target's contents get the splice, all other contents are only rewritten
recursively.  (Joint structural induction over the tree.) -/
theorem relemsArrs_spl (t : SpliceTgt) (hR : relemsArrs t.newR = [])
    (hU : useItemsArrs t.newU = []) :
    ∀ l : List RElem, relemsArrs (relemsSpl t l) = (relemsArrs l).map (entrySpl t) := by
  refine relemsArrs.induct
    (fun r => ruleArrs (ruleSpl t r) = (ruleArrs r).map (entrySpl t))
    (fun o => subArrs (subSpl t o) = (subArrs o).map (entrySpl t))
    (fun l => relemsArrs (relemsSpl t l) = (relemsArrs l).map (entrySpl t))
    (fun e => relemArrs (relemSpl t e) = (relemArrs e).map (entrySpl t))
    (fun v => useValArrs (useValSpl t v) = (useValArrs v).map (entrySpl t))
    (fun l => useItemsArrs (useItemsSpl t l) = (useItemsArrs l).map (entrySpl t))
    (fun it => useItemArrs (useItemSpl t it) = (useItemArrs it).map (entrySpl t))
    ?_ ?_ ?_ ?_ ?_ ?_ ?_ ?_ ?_ ?_ ?_ ?_ ?_ ?_
  · intro lo us lds ty cs oo rr h5a h5b h5c h2a h2b
    simp [ruleSpl, ruleArrs, h5a, h5b, h5c, h2a, h2b]
  · intro r h1
    simpa [relemSpl, relemArrs] using h1
  · intro e hne
    cases e with
    | rule r => exact absurd rfl (hne r)
    | null => rfl
    | strE s => rfl
    | fnE => rfl
  · intro r h1
    simpa [useValSpl, useValArrs] using h1
  · intro i items h6
    by_cases hc : (t.isUse && i == t.id) = true
    · simp [useValSpl, useValArrs, entrySpl, hc,
        useItemsArrs_splice _ _ _ hU, h6]
    · simp [useValSpl, useValArrs, entrySpl, hc, h6]
  · intro v hno hna
    cases v with
    | obj r => exact absurd rfl (hno r)
    | arr i items => exact absurd rfl (hna i items)
    | undef => rfl
    | str s => rfl
    | fn => rfl
  · intro r h1
    simpa [useItemSpl, useItemArrs] using h1
  · intro it hne
    cases it with
    | obj r => exact absurd rfl (hne r)
    | str s => rfl
    | fn => rfl
  · intro i items h3
    by_cases hc : (!t.isUse && i == t.id) = true
    · simp [subSpl, subArrs, entrySpl, hc, relemsArrs_splice _ _ _ hR, h3]
    · simp [subSpl, subArrs, entrySpl, hc, h3]
  · rfl
  · rfl
  · intro e rest h4 h3
    simp [relemsSpl, relemsArrs, h4, h3]
  · rfl
  · intro it rest h7 h6
    simp [useItemsSpl, useItemsArrs, h7, h6]

/-- A rule containing no arrays is a fixpoint of every pending splice. -/
theorem ruleSpl_clean (t : SpliceTgt) :
    ∀ r : Rule, ruleArrs r = [] → ruleSpl t r = r := by
  refine ruleArrs.induct
    (fun r => ruleArrs r = [] → ruleSpl t r = r)
    (fun o => subArrs o = [] → subSpl t o = o)
    (fun l => relemsArrs l = [] → relemsSpl t l = l)
    (fun e => relemArrs e = [] → relemSpl t e = e)
    (fun v => useValArrs v = [] → useValSpl t v = v)
    (fun l => useItemsArrs l = [] → useItemsSpl t l = l)
    (fun it => useItemArrs it = [] → useItemSpl t it = it)
    ?_ ?_ ?_ ?_ ?_ ?_ ?_ ?_ ?_ ?_ ?_ ?_ ?_ ?_
  · intro lo us lds ty cs oo rr h5a h5b h5c h2a h2b hz
    rw [ruleArrs] at hz
    simp only [List.append_eq_nil] at hz
    obtain ⟨⟨⟨⟨z1, z2⟩, z3⟩, z4⟩, z5⟩ := hz
    simp [ruleSpl, h5a z1, h5b z2, h5c z3, h2a z4, h2b z5]
  · intro r h1 hz
    rw [relemArrs] at hz
    simp [relemSpl, h1 hz]
  · intro e hne hz
    cases e with
    | rule r => exact absurd rfl (hne r)
    | null => rfl
    | strE s => rfl
    | fnE => rfl
  · intro r h1 hz
    rw [useValArrs] at hz
    simp [useValSpl, h1 hz]
  · intro i items h6 hz
    rw [useValArrs] at hz
    cases hz
  · intro v hno hna hz
    cases v with
    | obj r => exact absurd rfl (hno r)
    | arr i items => exact absurd rfl (hna i items)
    | undef => rfl
    | str s => rfl
    | fn => rfl
  · intro r h1 hz
    rw [useItemArrs] at hz
    simp [useItemSpl, h1 hz]
  · intro it hne hz
    cases it with
    | obj r => exact absurd rfl (hne r)
    | str s => rfl
    | fn => rfl
  · intro i items h3 hz
    rw [subArrs] at hz
    cases hz
  · intro hz
    rfl
  · intro hz
    rfl
  · intro e rest h4 h3 hz
    rw [relemsArrs] at hz
    simp only [List.append_eq_nil] at hz
    simp [relemsSpl, h4 hz.1, h3 hz.2]
  · intro hz
    rfl
  · intro it rest h7 h6 hz
    rw [useItemsArrs] at hz
    simp only [List.append_eq_nil] at hz
    simp [useItemsSpl, h7 hz.1, h6 hz.2]

/-- The splice of array-free items, at configuration level. -/
theorem cfgArrs_spl (t : SpliceTgt) (hR : relemsArrs t.newR = [])
    (hU : useItemsArrs t.newU = []) (cfg : Config) :
    cfgArrs (cfgSpl t cfg) = (cfgArrs cfg).map (entrySpl t) := by
  unfold cfgSpl cfgArrs
  cases cfg with
  | mk md =>
    cases md with
    | none => rfl
    | some m =>
      cases m with
      | mk rs =>
        cases rs with
        | none => rfl
        | some p =>
          obtain ⟨i, items⟩ := p
          by_cases hc : (!t.isUse && i == t.id) = true
          · simp [hc, entrySpl, relemsArrs_splice _ _ _ hR,
              relemsArrs_spl t hR hU items]
          · simp [hc, entrySpl, relemsArrs_spl t hR hU items]

/-- `entrySpl` preserves an entry's id. -/
theorem entrySpl_aid (t : SpliceTgt) (e : ArrEntry) :
    (entrySpl t e).aid = e.aid := by
  cases e <;> rfl

/-- Splicing array-free items preserves the configuration's id list (hence
`Nodup`). -/
theorem cfgIds_spl (t : SpliceTgt) (hR : relemsArrs t.newR = [])
    (hU : useItemsArrs t.newU = []) (cfg : Config) :
    cfgIds (cfgSpl t cfg) = cfgIds cfg := by
  unfold cfgIds
  rw [cfgArrs_spl t hR hU, List.map_map]
  exact List.map_congr_left (fun e _ => entrySpl_aid t e)

/-- How a splice shows through `lookupRA`: the generic filterMap step. -/
theorem filterMap_pickRA_spl (t : SpliceTgt) (j : Nat) (L : List ArrEntry) :
    (L.map (entrySpl t)).filterMap (pickRA j) =
      (L.filterMap (pickRA j)).map (fun l =>
        if !t.isUse && j == t.id then jsSplice (relemsSpl t l) t.n t.newR
        else relemsSpl t l) := by
  induction L with
  | nil => rfl
  | cons e rest ih =>
    cases e with
    | ra i l =>
      by_cases hij : i = j
      · subst hij
        simp [entrySpl, pickRA, ih]
      · simp [entrySpl, pickRA, hij, ih]
    | ua i l => simp [entrySpl, pickRA, ih]

/-- How a splice shows through `lookupUA`: the generic filterMap step. -/
theorem filterMap_pickUA_spl (t : SpliceTgt) (j : Nat) (L : List ArrEntry) :
    (L.map (entrySpl t)).filterMap (pickUA j) =
      (L.filterMap (pickUA j)).map (fun l =>
        if t.isUse && j == t.id then jsSplice (useItemsSpl t l) t.n t.newU
        else useItemsSpl t l) := by
  induction L with
  | nil => rfl
  | cons e rest ih =>
    cases e with
    | ua i l =>
      by_cases hij : i = j
      · subst hij
        simp [entrySpl, pickUA, ih]
      · simp [entrySpl, pickUA, hij, ih]
    | ra i l => simp [entrySpl, pickUA, ih]

/-- `lookupRA` after a clean splice. -/
theorem lookupRA_spl (t : SpliceTgt) (hR : relemsArrs t.newR = [])
    (hU : useItemsArrs t.newU = []) (cfg : Config) (j : Nat) :
    lookupRA (cfgSpl t cfg) j =
      (lookupRA cfg j).map (fun l =>
        if !t.isUse && j == t.id then jsSplice (relemsSpl t l) t.n t.newR
        else relemsSpl t l) := by
  unfold lookupRA
  rw [cfgArrs_spl t hR hU, filterMap_pickRA_spl, List.head?_map]

/-- `lookupUA` after a clean splice. -/
theorem lookupUA_spl (t : SpliceTgt) (hR : relemsArrs t.newR = [])
    (hU : useItemsArrs t.newU = []) (cfg : Config) (j : Nat) :
    lookupUA (cfgSpl t cfg) j =
      (lookupUA cfg j).map (fun l =>
        if t.isUse && j == t.id then jsSplice (useItemsSpl t l) t.n t.newU
        else useItemsSpl t l) := by
  unfold lookupUA
  rw [cfgArrs_spl t hR hU, filterMap_pickUA_spl, List.head?_map]

/-- In a `Nodup` tree, looking up the id of a collected rules array yields
exactly its contents. -/
theorem filterMap_pickRA_mem (j : Nat) (l : List RElem) :
    ∀ L : List ArrEntry, (L.map ArrEntry.aid).Nodup → ArrEntry.ra j l ∈ L →
    (L.filterMap (pickRA j)).head? = some l := by
  intro L
  induction L with
  | nil => intro _ hm; cases hm
  | cons e rest ih =>
    intro hnd hm
    rcases List.mem_cons.mp hm with he | he
    · subst he
      simp [pickRA]
    · have hj : j ∈ rest.map ArrEntry.aid := by
        exact List.mem_map.mpr ⟨ArrEntry.ra j l, he, rfl⟩
      have hne : e.aid ≠ j := by
        intro hcon
        rw [List.map_cons, List.nodup_cons] at hnd
        exact hnd.1 (hcon ▸ hj)
      have hpe : pickRA j e = none := by
        cases e with
        | ra i l2 =>
          have : i ≠ j := by simpa [ArrEntry.aid] using hne
          simp [pickRA, this]
        | ua i l2 => rfl
      rw [List.filterMap_cons, hpe]
      exact ih (by rw [List.map_cons, List.nodup_cons] at hnd; exact hnd.2) he

/-- In a `Nodup` tree, looking up the id of a collected `use` array yields
exactly its contents. -/
theorem filterMap_pickUA_mem (j : Nat) (l : List UseItem) :
    ∀ L : List ArrEntry, (L.map ArrEntry.aid).Nodup → ArrEntry.ua j l ∈ L →
    (L.filterMap (pickUA j)).head? = some l := by
  intro L
  induction L with
  | nil => intro _ hm; cases hm
  | cons e rest ih =>
    intro hnd hm
    rcases List.mem_cons.mp hm with he | he
    · subst he
      simp [pickUA]
    · have hj : j ∈ rest.map ArrEntry.aid := by
        exact List.mem_map.mpr ⟨ArrEntry.ua j l, he, rfl⟩
      have hne : e.aid ≠ j := by
        intro hcon
        rw [List.map_cons, List.nodup_cons] at hnd
        exact hnd.1 (hcon ▸ hj)
      have hpe : pickUA j e = none := by
        cases e with
        | ua i l2 =>
          have : i ≠ j := by simpa [ArrEntry.aid] using hne
          simp [pickUA, this]
        | ra i l2 => rfl
      rw [List.filterMap_cons, hpe]
      exact ih (by rw [List.map_cons, List.nodup_cons] at hnd; exact hnd.2) he

/-- `lookupRA` of a collected array, under `Nodup`. -/
theorem lookupRA_of_mem {cfg : Config} {j : Nat} {l : List RElem}
    (hnd : (cfgIds cfg).Nodup) (hm : ArrEntry.ra j l ∈ cfgArrs cfg) :
    lookupRA cfg j = some l :=
  filterMap_pickRA_mem j l (cfgArrs cfg) hnd hm

/-- `lookupUA` of a collected array, under `Nodup`. -/
theorem lookupUA_of_mem {cfg : Config} {j : Nat} {l : List UseItem}
    (hnd : (cfgIds cfg).Nodup) (hm : ArrEntry.ua j l ∈ cfgArrs cfg) :
    lookupUA cfg j = some l :=
  filterMap_pickUA_mem j l (cfgArrs cfg) hnd hm

/-- The inserted rendering of a clean entry carries no arrays. -/
theorem toRElem_arrs_clean {X : NewVal} (h : entryClean X = true) :
    relemsArrs [toRElem X] = [] := by
  cases X with
  | obj r =>
    simp [entryClean] at h
    simp [toRElem, relemsArrs, relemArrs, h]
  | str s => rfl
  | fnV => rfl
  | arrV l => simp [entryClean] at h

/-- The inserted rendering of a clean entry carries no arrays (use side). -/
theorem toUseItem_arrs_clean {X : NewVal} (h : entryClean X = true) :
    useItemsArrs [toUseItem X] = [] := by
  cases X with
  | obj r =>
    simp [entryClean] at h
    simp [toUseItem, useItemsArrs, useItemArrs, h]
  | str s => rfl
  | fnV => rfl
  | arrV l => simp [entryClean] at h

/-- A clean inserted element is a fixpoint of later splices. -/
theorem toRElem_spl_clean (t : SpliceTgt) {X : NewVal}
    (h : entryClean X = true) : relemSpl t (toRElem X) = toRElem X := by
  cases X with
  | obj r =>
    simp [entryClean] at h
    simp [toRElem, relemSpl, ruleSpl_clean t r h]
  | str s => rfl
  | fnV => rfl
  | arrV l => simp [entryClean] at h

/-- A clean inserted `use` element is a fixpoint of later splices. -/
theorem toUseItem_spl_clean (t : SpliceTgt) {X : NewVal}
    (h : entryClean X = true) : useItemSpl t (toUseItem X) = toUseItem X := by
  cases X with
  | obj r =>
    simp [entryClean] at h
    have hr := ruleSpl_clean t r h
    simp [toUseItem, useItemSpl, hr]
  | str s => rfl
  | fnV => rfl
  | arrV l => simp [entryClean] at h

/-- The id is the second component of an entry's reference. -/
theorem ArrEntry.ref_snd (e : ArrEntry) : e.ref.2 = e.aid := by
  cases e <;> rfl

/-- `ruleArrs` through the accessors. -/
theorem ruleArrs_eq (r : Rule) :
    ruleArrs r = useValArrs r.loader ++ (useValArrs r.useF ++ (useValArrs r.loaders
      ++ (subArrs r.oneOf ++ subArrs r.rulesF))) := by
  cases r
  simp [ruleArrs, Rule.loader, Rule.useF, Rule.loaders, Rule.oneOf, Rule.rulesF]

/-- Disjoint ids across an append, from `Nodup` of the mapped ids. -/
theorem disj_aid {L1 L2 : List ArrEntry}
    (h : ((L1 ++ L2).map ArrEntry.aid).Nodup) :
    ∀ e1 ∈ L1, ∀ e2 ∈ L2, e1.aid ≠ e2.aid := by
  intro e1 h1 e2 h2
  rw [List.map_append] at h
  exact fun hc => (List.disjoint_of_nodup_append h)
    (List.mem_map.mpr ⟨e1, h1, rfl⟩) (hc ▸ List.mem_map.mpr ⟨e2, h2, rfl⟩)

/-- The master cross-group step: two records from groups whose possible
references are an own-list window plus disjoint array segments (none of which
is the own list) are in `sameRefAsc` whenever the first window ends by the
start of the second. -/
theorem sameRefAsc_cross {ra rb : Rec} {x lo1 hi1 lo2 hi2 : Nat}
    {S1 S2 : List ArrEntry}
    (pa : (ra.ref = (false, x) ∧ lo1 ≤ ra.index ∧ ra.index < hi1)
          ∨ ∃ e ∈ S1, ra.ref = e.ref ∧ ra.index < e.len)
    (pb : (rb.ref = (false, x) ∧ lo2 ≤ rb.index ∧ rb.index < hi2)
          ∨ ∃ e ∈ S2, rb.ref = e.ref ∧ rb.index < e.len)
    (hx1 : ∀ e ∈ S1, e.aid ≠ x)
    (hx2 : ∀ e ∈ S2, e.aid ≠ x)
    (hdisj : ∀ e1 ∈ S1, ∀ e2 ∈ S2, e1.aid ≠ e2.aid)
    (hord : hi1 ≤ lo2 + 1) :
    sameRefAsc ra rb := by
  intro href
  rcases pa with ⟨ga, la, ha⟩ | ⟨e1, he1, ge1, _⟩
  · rcases pb with ⟨gb, lb, hb⟩ | ⟨e2, he2, ge2, _⟩
    · omega
    · exfalso
      apply hx2 e2 he2
      have : (false, x) = e2.ref := by rw [← ga, href, ge2]
      calc e2.aid = e2.ref.2 := (ArrEntry.ref_snd e2).symm
        _ = x := by rw [← this]
  · rcases pb with ⟨gb, _, _⟩ | ⟨e2, he2, ge2, _⟩
    · exfalso
      apply hx1 e1 he1
      have : (false, x) = e1.ref := by rw [← gb, ← href, ge1]
      calc e1.aid = e1.ref.2 := (ArrEntry.ref_snd e1).symm
        _ = x := by rw [← this]
    · exfalso
      apply hdisj e1 he1 e2 he2
      have : e1.ref = e2.ref := by rw [← ge1, href, ge2]
      calc e1.aid = e1.ref.2 := (ArrEntry.ref_snd e1).symm
        _ = e2.ref.2 := by rw [this]
        _ = e2.aid := ArrEntry.ref_snd e2

/-- What one `use`-array scan produces: records of that array only, indices
inside the scanned suffix, in ascending order. -/
theorem scanUseArr_spec (m : Rec → Except JErr Bool) (arrId : Nat) :
    ∀ (us : List UseItem) (i : Nat) (out : List Rec),
    scanUseArr m arrId us i = .ok out →
    (∀ rec ∈ out, rec.ref = (true, arrId) ∧ i ≤ rec.index ∧
      rec.index < i + us.length)
    ∧ out.Pairwise (fun a b => a.index ≤ b.index) := by
  intro us
  induction us with
  | nil =>
    intro i out h
    rw [scanUseArr.eq_def] at h
    cases h
    exact ⟨fun rec hrec => absurd hrec (List.not_mem_nil rec), List.Pairwise.nil⟩
  | cons it rest ih =>
    intro i out h
    rw [scanUseArr.eq_def] at h
    dsimp only at h
    have main : ∀ (here : List Rec) (rest' : List Rec),
        (∀ rec ∈ here, rec.ref = (true, arrId) ∧ rec.index = i) →
        here.Pairwise (fun a b => a.index ≤ b.index) →
        scanUseArr m arrId rest (i + 1) = .ok rest' →
        out = here ++ rest' →
        (∀ rec ∈ out, rec.ref = (true, arrId) ∧ i ≤ rec.index ∧
          rec.index < i + (it :: rest).length)
        ∧ out.Pairwise (fun a b => a.index ≤ b.index) := by
      intro here rest' hmem hpw hrest hout
      subst hout
      obtain ⟨ihm, ihp⟩ := ih (i + 1) rest' hrest
      constructor
      · intro rec hrec
        rcases List.mem_append.mp hrec with hja | hjb
        · obtain ⟨hr1, hr2⟩ := hmem rec hja
          refine ⟨hr1, by omega, by simp; omega⟩
        · obtain ⟨hr1, hr2, hr3⟩ := ihm rec hjb
          refine ⟨hr1, by omega, by simp at hr3 ⊢; omega⟩
      · refine List.pairwise_append.mpr ⟨hpw, ihp, ?_⟩
        intro a ha b hb
        have h1 := (hmem a ha).2
        have h2 := (ihm b hb).2.1
        omega
    cases it with
    | str s =>
      obtain ⟨bv, _, h2⟩ := bind_ok h
      obtain ⟨here, hh, h3⟩ := bind_ok h2
      obtain ⟨rest', hrest, h4⟩ := bind_ok h3
      cases h4
      cases hh
      refine main _ rest' ?_ ?_ hrest rfl
      · intro rec hrec
        rcases bv with _ | _
        · simp at hrec
        · simp at hrec
          subst hrec
          exact ⟨rfl, rfl⟩
      · rcases bv with _ | _ <;> simp
    | obj ro =>
      obtain ⟨bv, _, h2⟩ := bind_ok h
      obtain ⟨here, hh, h3⟩ := bind_ok h2
      obtain ⟨rest', hrest, h4⟩ := bind_ok h3
      cases h4
      cases hh
      refine main _ rest' ?_ ?_ hrest rfl
      · intro rec hrec
        rcases bv with _ | _
        · simp at hrec
        · simp at hrec
          subst hrec
          exact ⟨rfl, rfl⟩
      · rcases bv with _ | _ <;> simp
    | fn =>
      obtain ⟨here, hh, h3⟩ := bind_ok h
      obtain ⟨rest', hrest, h4⟩ := bind_ok h3
      cases h4
      cases hh
      refine main _ rest' ?_ ?_ hrest rfl
      · intro rec hrec
        simp at hrec
      · simp

/-- What the scan of one invocation-field value produces: either the single
own-list record at the node's index, or records of the field's `use` array;
in ascending same-collection order. -/
theorem matchRuleSet_spec (m : Rec → Except JErr Bool) (useV : UseVal)
    (listId idx : Nat) (r : Rule) (b : Bool) (out : List Rec)
    (h : matchRuleSet m useV listId idx r b = .ok out) :
    (∀ rec ∈ out,
      (rec.ref = (false, listId) ∧ idx ≤ rec.index ∧ rec.index < idx + 1)
      ∨ ∃ e ∈ useValArrs useV, rec.ref = e.ref ∧ rec.index < e.len)
    ∧ out.Pairwise sameRefAsc := by
  cases useV with
  | undef =>
    cases h
    exact ⟨fun rec hrec => absurd hrec (List.not_mem_nil rec), List.Pairwise.nil⟩
  | fn =>
    cases h
    exact ⟨fun rec hrec => absurd hrec (List.not_mem_nil rec), List.Pairwise.nil⟩
  | str s =>
    rw [matchRuleSet] at h
    by_cases hs : s = ""
    · rw [if_pos hs] at h
      cases h
      exact ⟨fun rec hrec => absurd hrec (List.not_mem_nil rec), List.Pairwise.nil⟩
    · rw [if_neg hs] at h
      obtain ⟨bv, _, hb⟩ := bind_ok h
      cases hb
      rcases bv with _ | _
      · exact ⟨fun rec hrec => absurd hrec (by simpa using List.not_mem_nil rec),
          by simp⟩
      · refine ⟨?_, by simp⟩
        intro rec hrec
        simp at hrec
        subst hrec
        exact Or.inl ⟨rfl, Nat.le_refl _, Nat.lt_succ_self _⟩
  | obj ro =>
    rw [matchRuleSet] at h
    obtain ⟨bv, _, hb⟩ := bind_ok h
    cases hb
    rcases bv with _ | _
    · exact ⟨fun rec hrec => absurd hrec (by simpa using List.not_mem_nil rec),
        by simp⟩
    · refine ⟨?_, by simp⟩
      intro rec hrec
      simp at hrec
      subst hrec
      exact Or.inl ⟨rfl, Nat.le_refl _, Nat.lt_succ_self _⟩
  | arr arrId us =>
    rw [matchRuleSet] at h
    obtain ⟨hm, hp⟩ := scanUseArr_spec m arrId us 0 out h
    constructor
    · intro rec hrec
      obtain ⟨h1, _, h3⟩ := hm rec hrec
      exact Or.inr ⟨.ua arrId us, List.mem_cons_self _ _,
        h1, by simpa using h3⟩
    · exact hp.imp (fun hab => fun _ => hab)

/-- `relemsArrs` on a cons. -/
theorem relemsArrs_cons (e : RElem) (rest : List RElem) :
    relemsArrs (e :: rest) = relemArrs e ++ relemsArrs rest := by
  rw [relemsArrs]

/-- Stepping past one element preserves record provenance. -/
theorem recProv_skip {listId : Nat} {e : RElem} {rest : List RElem} {i : Nat}
    {rec : Rec} (h : recProv listId rest (i + 1) rec) :
    recProv listId (e :: rest) i rec := by
  rcases h with ⟨h1, h2, h3⟩ | ⟨en, hen, h1, h2⟩
  · exact Or.inl ⟨h1, by omega, by simp; omega⟩
  · exact Or.inr ⟨en, by
      rw [relemsArrs_cons]
      exact List.mem_append_right _ hen, h1, h2⟩

/-- The walk invariant: a successful `goRules` pass over an alias-free rules
array produces records that point either at that array (at a scanned index)
or at an array below one of its elements (inside bounds), and any two records
of the same collection come in weakly ascending index order. -/
theorem goRules_spec (m : Rec → Except JErr Bool) (g : Option PGate) :
    ∀ (parent : Option Rule) (b : Bool) (listId : Nat) (items : List RElem)
      (i : Nat) (out : List Rec),
    goRules m g parent b listId items i = .ok out →
    (listId :: (relemsArrs items).map ArrEntry.aid).Nodup →
    (∀ rec ∈ out, recProv listId items i rec) ∧ out.Pairwise sameRefAsc := by
  have skipcase : ∀ (parent : Option Rule) (b : Bool) (listId : Nat)
      (e : RElem) (he : relemArrs e = []) (rest : List RElem) (i : Nat)
      (out : List Rec),
      (∀ out2, goRules m g parent b listId rest (i + 1) = .ok out2 →
        (listId :: (relemsArrs rest).map ArrEntry.aid).Nodup →
        (∀ rec ∈ out2, recProv listId rest (i + 1) rec) ∧ out2.Pairwise sameRefAsc) →
      goRules m g parent b listId rest (i + 1) = .ok out →
      (listId :: (relemsArrs (e :: rest)).map ArrEntry.aid).Nodup →
      (∀ rec ∈ out, recProv listId (e :: rest) i rec) ∧ out.Pairwise sameRefAsc := by
    intro parent b listId e he rest i out ih hstep hnd
    rw [relemsArrs_cons, he, List.nil_append] at hnd
    obtain ⟨hp, hw⟩ := ih out hstep hnd
    exact ⟨fun rec hrec => recProv_skip (hp rec hrec), hw⟩
  refine goRules.induct m g
    (fun parent b listId items i => ∀ out,
      goRules m g parent b listId items i = .ok out →
      (listId :: (relemsArrs items).map ArrEntry.aid).Nodup →
      (∀ rec ∈ out, recProv listId items i rec) ∧ out.Pairwise sameRefAsc)
    ?_ ?_ ?_ ?_ ?_ ?_
  · intro parent b listId i out hout _
    rw [goRules] at hout
    cases hout
    exact ⟨fun rec hrec => absurd hrec (List.not_mem_nil rec), List.Pairwise.nil⟩
  · intro parent b listId rest i ih out hout hnd
    rw [goRules] at hout
    exact skipcase parent b listId .null rfl rest i out ih hout hnd
  · intro parent b listId s rest i ih out hout hnd
    rw [goRules] at hout
    exact skipcase parent b listId (.strE s) rfl rest i out ih hout hnd
  · intro parent b listId rest i ih out hout hnd
    rw [goRules] at hout
    exact skipcase parent b listId .fnE rfl rest i out ih hout hnd
  · -- gated rule: skipped entirely
    intro parent b listId r rest i hblk ih out hout hnd
    rw [goRules, if_pos hblk] at hout
    have hnd2 : (listId :: (relemsArrs rest).map ArrEntry.aid).Nodup := by
      rw [relemsArrs_cons, List.map_append] at hnd
      obtain ⟨hx, hn⟩ := List.nodup_cons.mp hnd
      refine List.nodup_cons.mpr ⟨fun hc => hx (List.mem_append_right _ hc),
        hn.of_append_right⟩
    obtain ⟨hp, hw⟩ := ih out hout hnd2
    exact ⟨fun rec hrec => recProv_skip (hp rec hrec), hw⟩
  · -- the full node case
    intro parent b listId r rest i hng ihrest ihrules ihoneof out hout hnd
    rw [goRules, if_neg hng] at hout
    have houtN : (do
        let f1 ← matchRuleSet m r.loader listId i r b
        let f2 ← matchRuleSet m r.useF listId i r b
        let f3 ← matchRuleSet m r.loaders listId i r b
        let f4 ← matchRuleSet m (typeUse r.rtype) listId i r b
        let c1 ← (match r.oneOf with
          | some a =>
              if a.items.isEmpty then pure []
              else goRules m g (some r) true a.id a.items 0
          | none => pure [])
        let c2 ← (match r.rulesF with
          | some a =>
              if a.items.isEmpty then pure []
              else goRules m g (some r) false a.id a.items 0
          | none => pure [])
        let rest' ← goRules m g parent b listId rest (i + 1)
        Except.ok (f1 ++ f2 ++ f3 ++ f4 ++ c1 ++ c2 ++ rest')) = .ok out := by
      rcases hoo : r.oneOf with _ | a <;> rcases hrr : r.rulesF with _ | a2 <;>
        rw [hoo, hrr] at hout <;> (try dsimp only at hout ⊢) <;>
        first
          | exact hout
          | (split_ifs at hout ⊢ <;> exact hout)
    clear hout
    rename' houtN => hout
    obtain ⟨f1, hf1, hout⟩ := bind_ok hout
    obtain ⟨f2, hf2, hout⟩ := bind_ok hout
    obtain ⟨f3, hf3, hout⟩ := bind_ok hout
    obtain ⟨f4, hf4, hout⟩ := bind_ok hout
    obtain ⟨c1, hc1, hout⟩ := bind_ok hout
    obtain ⟨c2, hc2, hout⟩ := bind_ok hout
    obtain ⟨rest', hrest, hout⟩ := bind_ok hout
    cases hout
    have hT : relemsArrs (RElem.rule r :: rest) =
        useValArrs r.loader ++ (useValArrs r.useF ++ (useValArrs r.loaders
          ++ (subArrs r.oneOf ++ (subArrs r.rulesF ++ relemsArrs rest)))) := by
      rw [relemsArrs_cons, relemArrs, ruleArrs_eq]
      simp [List.append_assoc]
    rw [hT] at hnd
    obtain ⟨hxT, hndT⟩ := List.nodup_cons.mp hnd
    simp only [List.map_append] at hxT hndT
    simp only [List.mem_append, not_or] at hxT
    obtain ⟨hx1, hx2, hx3, hx4, hx5, hx6⟩ := hxT
    obtain ⟨nd1, hndT2, dj1⟩ := List.nodup_append.mp hndT
    obtain ⟨nd2, hndT3, dj2⟩ := List.nodup_append.mp hndT2
    obtain ⟨nd3, hndT4, dj3⟩ := List.nodup_append.mp hndT3
    obtain ⟨nd4, hndT5, dj4⟩ := List.nodup_append.mp hndT4
    obtain ⟨nd5, nd6, dj5⟩ := List.nodup_append.mp hndT5
    have hxk : ∀ (S : List ArrEntry), listId ∉ S.map ArrEntry.aid →
        ∀ e ∈ S, e.aid ≠ listId :=
      fun S hS e he hc => hS (List.mem_map.mpr ⟨e, he, hc⟩)
    -- pairwise id-disjointness of the six segments
    have d12 : ∀ e1 ∈ useValArrs r.loader, ∀ e2 ∈ useValArrs r.useF,
        e1.aid ≠ e2.aid := by
      intro e1 h1 e2 h2 hc
      exact dj1 (List.mem_map.mpr ⟨e1, h1, rfl⟩)
        (List.mem_append_left _ (List.mem_map.mpr ⟨e2, h2, hc.symm⟩))
    have d13 : ∀ e1 ∈ useValArrs r.loader, ∀ e2 ∈ useValArrs r.loaders,
        e1.aid ≠ e2.aid := by
      intro e1 h1 e2 h2 hc
      exact dj1 (List.mem_map.mpr ⟨e1, h1, rfl⟩)
        (List.mem_append_right _ (List.mem_append_left _
          (List.mem_map.mpr ⟨e2, h2, hc.symm⟩)))
    have d14 : ∀ e1 ∈ useValArrs r.loader, ∀ e2 ∈ subArrs r.oneOf,
        e1.aid ≠ e2.aid := by
      intro e1 h1 e2 h2 hc
      exact dj1 (List.mem_map.mpr ⟨e1, h1, rfl⟩)
        (List.mem_append_right _ (List.mem_append_right _
          (List.mem_append_left _ (List.mem_map.mpr ⟨e2, h2, hc.symm⟩))))
    have d15 : ∀ e1 ∈ useValArrs r.loader, ∀ e2 ∈ subArrs r.rulesF,
        e1.aid ≠ e2.aid := by
      intro e1 h1 e2 h2 hc
      exact dj1 (List.mem_map.mpr ⟨e1, h1, rfl⟩)
        (List.mem_append_right _ (List.mem_append_right _
          (List.mem_append_right _ (List.mem_append_left _
            (List.mem_map.mpr ⟨e2, h2, hc.symm⟩)))))
    have d16 : ∀ e1 ∈ useValArrs r.loader, ∀ e2 ∈ relemsArrs rest,
        e1.aid ≠ e2.aid := by
      intro e1 h1 e2 h2 hc
      exact dj1 (List.mem_map.mpr ⟨e1, h1, rfl⟩)
        (List.mem_append_right _ (List.mem_append_right _
          (List.mem_append_right _ (List.mem_append_right _
            (List.mem_map.mpr ⟨e2, h2, hc.symm⟩)))))
    have d23 : ∀ e1 ∈ useValArrs r.useF, ∀ e2 ∈ useValArrs r.loaders,
        e1.aid ≠ e2.aid := by
      intro e1 h1 e2 h2 hc
      exact dj2 (List.mem_map.mpr ⟨e1, h1, rfl⟩)
        (List.mem_append_left _ (List.mem_map.mpr ⟨e2, h2, hc.symm⟩))
    have d24 : ∀ e1 ∈ useValArrs r.useF, ∀ e2 ∈ subArrs r.oneOf,
        e1.aid ≠ e2.aid := by
      intro e1 h1 e2 h2 hc
      exact dj2 (List.mem_map.mpr ⟨e1, h1, rfl⟩)
        (List.mem_append_right _ (List.mem_append_left _
          (List.mem_map.mpr ⟨e2, h2, hc.symm⟩)))
    have d25 : ∀ e1 ∈ useValArrs r.useF, ∀ e2 ∈ subArrs r.rulesF,
        e1.aid ≠ e2.aid := by
      intro e1 h1 e2 h2 hc
      exact dj2 (List.mem_map.mpr ⟨e1, h1, rfl⟩)
        (List.mem_append_right _ (List.mem_append_right _
          (List.mem_append_left _ (List.mem_map.mpr ⟨e2, h2, hc.symm⟩))))
    have d26 : ∀ e1 ∈ useValArrs r.useF, ∀ e2 ∈ relemsArrs rest,
        e1.aid ≠ e2.aid := by
      intro e1 h1 e2 h2 hc
      exact dj2 (List.mem_map.mpr ⟨e1, h1, rfl⟩)
        (List.mem_append_right _ (List.mem_append_right _
          (List.mem_append_right _ (List.mem_map.mpr ⟨e2, h2, hc.symm⟩))))
    have d34 : ∀ e1 ∈ useValArrs r.loaders, ∀ e2 ∈ subArrs r.oneOf,
        e1.aid ≠ e2.aid := by
      intro e1 h1 e2 h2 hc
      exact dj3 (List.mem_map.mpr ⟨e1, h1, rfl⟩)
        (List.mem_append_left _ (List.mem_map.mpr ⟨e2, h2, hc.symm⟩))
    have d35 : ∀ e1 ∈ useValArrs r.loaders, ∀ e2 ∈ subArrs r.rulesF,
        e1.aid ≠ e2.aid := by
      intro e1 h1 e2 h2 hc
      exact dj3 (List.mem_map.mpr ⟨e1, h1, rfl⟩)
        (List.mem_append_right _ (List.mem_append_left _
          (List.mem_map.mpr ⟨e2, h2, hc.symm⟩)))
    have d36 : ∀ e1 ∈ useValArrs r.loaders, ∀ e2 ∈ relemsArrs rest,
        e1.aid ≠ e2.aid := by
      intro e1 h1 e2 h2 hc
      exact dj3 (List.mem_map.mpr ⟨e1, h1, rfl⟩)
        (List.mem_append_right _ (List.mem_append_right _
          (List.mem_map.mpr ⟨e2, h2, hc.symm⟩)))
    have d45 : ∀ e1 ∈ subArrs r.oneOf, ∀ e2 ∈ subArrs r.rulesF,
        e1.aid ≠ e2.aid := by
      intro e1 h1 e2 h2 hc
      exact dj4 (List.mem_map.mpr ⟨e1, h1, rfl⟩)
        (List.mem_append_left _ (List.mem_map.mpr ⟨e2, h2, hc.symm⟩))
    have d46 : ∀ e1 ∈ subArrs r.oneOf, ∀ e2 ∈ relemsArrs rest,
        e1.aid ≠ e2.aid := by
      intro e1 h1 e2 h2 hc
      exact dj4 (List.mem_map.mpr ⟨e1, h1, rfl⟩)
        (List.mem_append_right _ (List.mem_map.mpr ⟨e2, h2, hc.symm⟩))
    have d56 : ∀ e1 ∈ subArrs r.rulesF, ∀ e2 ∈ relemsArrs rest,
        e1.aid ≠ e2.aid := by
      intro e1 h1 e2 h2 hc
      exact dj5 (List.mem_map.mpr ⟨e1, h1, rfl⟩)
        (List.mem_map.mpr ⟨e2, h2, hc.symm⟩)
    -- the seven group specifications
    obtain ⟨p1, w1⟩ := matchRuleSet_spec m r.loader listId i r b f1 hf1
    obtain ⟨p2, w2⟩ := matchRuleSet_spec m r.useF listId i r b f2 hf2
    obtain ⟨p3, w3⟩ := matchRuleSet_spec m r.loaders listId i r b f3 hf3
    obtain ⟨p4, w4⟩ := matchRuleSet_spec m (typeUse r.rtype) listId i r b f4 hf4
    have hS4f : useValArrs (typeUse r.rtype) = [] := by
      cases r.rtype
      · rfl
      · rfl
    have c1block : (∀ rec ∈ c1, ∃ e ∈ subArrs r.oneOf, rec.ref = e.ref
        ∧ rec.index < e.len) ∧ c1.Pairwise sameRefAsc := by
      rcases hoo : r.oneOf with _ | a
      · rw [hoo] at hc1
        dsimp only [pure, Except.pure] at hc1
        cases hc1
        exact ⟨fun rec hrec => absurd hrec (List.not_mem_nil rec), List.Pairwise.nil⟩
      · rw [hoo] at hc1
        dsimp only [pure, Except.pure] at hc1
        by_cases hae : a.items.isEmpty = true
        · rw [if_pos hae] at hc1
          cases hc1
          exact ⟨fun rec hrec => absurd hrec (List.not_mem_nil rec), List.Pairwise.nil⟩
        · rw [if_neg hae] at hc1
          have hnd4c : (a.id :: (relemsArrs a.items).map ArrEntry.aid).Nodup := by
            have hh := nd4
            rw [hoo] at hh
            obtain ⟨aid0, aitems⟩ := a
            simpa [subArrs, SubArr.id, SubArr.items] using hh
          obtain ⟨pc, wc⟩ := ihoneof a hoo hae c1 hc1 hnd4c
          refine ⟨?_, wc⟩
          intro rec hrec
          rcases pc rec hrec with ⟨g1, g2, g3⟩ | ⟨e, he, g1, g2⟩
          · refine ⟨.ra a.id a.items, ?_, ?_, ?_⟩
            · obtain ⟨aid0, aitems⟩ := a
              simp [subArrs, SubArr.id, SubArr.items]
            · rw [g1]
              rfl
            · simpa [ArrEntry.len] using g3
          · refine ⟨e, ?_, g1, g2⟩
            obtain ⟨aid0, aitems⟩ := a
            simp only [subArrs]
            exact List.mem_cons_of_mem _ (by simpa [SubArr.items] using he)
    have c2block : (∀ rec ∈ c2, ∃ e ∈ subArrs r.rulesF, rec.ref = e.ref
        ∧ rec.index < e.len) ∧ c2.Pairwise sameRefAsc := by
      rcases hrr : r.rulesF with _ | a
      · rw [hrr] at hc2
        dsimp only [pure, Except.pure] at hc2
        cases hc2
        exact ⟨fun rec hrec => absurd hrec (List.not_mem_nil rec), List.Pairwise.nil⟩
      · rw [hrr] at hc2
        dsimp only [pure, Except.pure] at hc2
        by_cases hae : a.items.isEmpty = true
        · rw [if_pos hae] at hc2
          cases hc2
          exact ⟨fun rec hrec => absurd hrec (List.not_mem_nil rec), List.Pairwise.nil⟩
        · rw [if_neg hae] at hc2
          have hnd5c : (a.id :: (relemsArrs a.items).map ArrEntry.aid).Nodup := by
            have hh := nd5
            rw [hrr] at hh
            obtain ⟨aid0, aitems⟩ := a
            simpa [subArrs, SubArr.id, SubArr.items] using hh
          obtain ⟨pc, wc⟩ := ihrules a hrr hae c2 hc2 hnd5c
          refine ⟨?_, wc⟩
          intro rec hrec
          rcases pc rec hrec with ⟨g1, g2, g3⟩ | ⟨e, he, g1, g2⟩
          · refine ⟨.ra a.id a.items, ?_, ?_, ?_⟩
            · obtain ⟨aid0, aitems⟩ := a
              simp [subArrs, SubArr.id, SubArr.items]
            · rw [g1]
              rfl
            · simpa [ArrEntry.len] using g3
          · refine ⟨e, ?_, g1, g2⟩
            obtain ⟨aid0, aitems⟩ := a
            simp only [subArrs]
            exact List.mem_cons_of_mem _ (by simpa [SubArr.items] using he)
    have hnd6 : (listId :: (relemsArrs rest).map ArrEntry.aid).Nodup :=
      List.nodup_cons.mpr ⟨hx6, nd6⟩
    obtain ⟨p7, w7⟩ := ihrest rest' hrest hnd6
    have injT : ∀ (e : ArrEntry),
        e ∈ useValArrs r.loader ∨ e ∈ useValArrs r.useF ∨ e ∈ useValArrs r.loaders
          ∨ e ∈ subArrs r.oneOf ∨ e ∈ subArrs r.rulesF ∨ e ∈ relemsArrs rest →
        e ∈ relemsArrs (RElem.rule r :: rest) := by
      intro e he
      rw [hT]
      simp only [List.mem_append]
      tauto
    have provF : ∀ (S : List ArrEntry),
        (∀ e ∈ S, e ∈ relemsArrs (RElem.rule r :: rest)) → ∀ (L : List Rec),
        (∀ rec ∈ L, (rec.ref = (false, listId) ∧ i ≤ rec.index ∧ rec.index < i + 1)
          ∨ ∃ e ∈ S, rec.ref = e.ref ∧ rec.index < e.len) →
        ∀ rec ∈ L, recProv listId (RElem.rule r :: rest) i rec := by
      intro S hS L hL rec hrec
      rcases hL rec hrec with ⟨g1, g2, g3⟩ | ⟨e, he, g1, g2⟩
      · exact Or.inl ⟨g1, g2, by simp; omega⟩
      · exact Or.inr ⟨e, hS e he, g1, g2⟩
    have q5 : ∀ rec ∈ c1,
        (rec.ref = (false, listId) ∧ i ≤ rec.index ∧ rec.index < 0)
        ∨ ∃ e ∈ subArrs r.oneOf, rec.ref = e.ref ∧ rec.index < e.len :=
      fun rec hrec => Or.inr (c1block.1 rec hrec)
    have q6 : ∀ rec ∈ c2,
        (rec.ref = (false, listId) ∧ i ≤ rec.index ∧ rec.index < 0)
        ∨ ∃ e ∈ subArrs r.rulesF, rec.ref = e.ref ∧ rec.index < e.len :=
      fun rec hrec => Or.inr (c2block.1 rec hrec)
    have q7 : ∀ rec ∈ rest',
        (rec.ref = (false, listId) ∧ i + 1 ≤ rec.index
          ∧ rec.index < (i + 1) + rest.length)
        ∨ ∃ e ∈ relemsArrs rest, rec.ref = e.ref ∧ rec.index < e.len :=
      fun rec hrec => p7 rec hrec
    refine ⟨?_, ?_⟩
    · intro rec hrec
      simp only [List.append_assoc, List.mem_append] at hrec
      rcases hrec with h | h | h | h | h | h | h
      · exact provF _ (fun e he => injT e (Or.inl he)) f1 p1 rec h
      · exact provF _ (fun e he => injT e (Or.inr (Or.inl he))) f2 p2 rec h
      · exact provF _ (fun e he => injT e (Or.inr (Or.inr (Or.inl he)))) f3 p3 rec h
      · exact provF _ (fun e he => absurd (hS4f ▸ he) (List.not_mem_nil e)) f4 p4 rec h
      · rcases c1block.1 rec h with ⟨e, he, g1, g2⟩
        exact Or.inr ⟨e, injT e (Or.inr (Or.inr (Or.inr (Or.inl he)))), g1, g2⟩
      · rcases c2block.1 rec h with ⟨e, he, g1, g2⟩
        exact Or.inr ⟨e, injT e (Or.inr (Or.inr (Or.inr (Or.inr (Or.inl he))))), g1, g2⟩
      · exact recProv_skip (p7 rec h)
    · have hcx : ∀ {A B : List Rec} {SA SB : List ArrEntry} {loA hiA loB hiB : Nat},
          (∀ ra ∈ A, (ra.ref = (false, listId) ∧ loA ≤ ra.index ∧ ra.index < hiA)
            ∨ ∃ e ∈ SA, ra.ref = e.ref ∧ ra.index < e.len) →
          (∀ rb ∈ B, (rb.ref = (false, listId) ∧ loB ≤ rb.index ∧ rb.index < hiB)
            ∨ ∃ e ∈ SB, rb.ref = e.ref ∧ rb.index < e.len) →
          (∀ e ∈ SA, e.aid ≠ listId) → (∀ e ∈ SB, e.aid ≠ listId) →
          (∀ e1 ∈ SA, ∀ e2 ∈ SB, e1.aid ≠ e2.aid) → hiA ≤ loB + 1 →
          ∀ ra ∈ A, ∀ rb ∈ B, sameRefAsc ra rb :=
        fun pA pB hA hB hD hO ra hra rb hrb =>
          sameRefAsc_cross (pA ra hra) (pB rb hrb) hA hB hD hO
      have hx4f : ∀ e ∈ useValArrs (typeUse r.rtype), e.aid ≠ listId :=
        fun e he => absurd (hS4f ▸ he) (List.not_mem_nil e)
      have dV4 : ∀ (S : List ArrEntry), ∀ e1 ∈ S,
          ∀ e2 ∈ useValArrs (typeUse r.rtype), e1.aid ≠ e2.aid :=
        fun _ e1 _ e2 he2 => absurd (hS4f ▸ he2) (List.not_mem_nil e2)
      have d4V : ∀ (S : List ArrEntry), ∀ e1 ∈ useValArrs (typeUse r.rtype),
          ∀ e2 ∈ S, e1.aid ≠ e2.aid :=
        fun _ e1 he1 => absurd (hS4f ▸ he1) (List.not_mem_nil e1)
      have x12 := hcx p1 p2 (hxk _ hx1) (hxk _ hx2) d12 (by omega)
      have x13 := hcx p1 p3 (hxk _ hx1) (hxk _ hx3) d13 (by omega)
      have x14 := hcx p1 p4 (hxk _ hx1) hx4f (dV4 _) (by omega)
      have x15 := hcx p1 q5 (hxk _ hx1) (hxk _ hx4) d14 (by omega)
      have x16 := hcx p1 q6 (hxk _ hx1) (hxk _ hx5) d15 (by omega)
      have x17 := hcx p1 q7 (hxk _ hx1) (hxk _ hx6) d16 (by omega)
      have x23 := hcx p2 p3 (hxk _ hx2) (hxk _ hx3) d23 (by omega)
      have x24 := hcx p2 p4 (hxk _ hx2) hx4f (dV4 _) (by omega)
      have x25 := hcx p2 q5 (hxk _ hx2) (hxk _ hx4) d24 (by omega)
      have x26 := hcx p2 q6 (hxk _ hx2) (hxk _ hx5) d25 (by omega)
      have x27 := hcx p2 q7 (hxk _ hx2) (hxk _ hx6) d26 (by omega)
      have x34 := hcx p3 p4 (hxk _ hx3) hx4f (dV4 _) (by omega)
      have x35 := hcx p3 q5 (hxk _ hx3) (hxk _ hx4) d34 (by omega)
      have x36 := hcx p3 q6 (hxk _ hx3) (hxk _ hx5) d35 (by omega)
      have x37 := hcx p3 q7 (hxk _ hx3) (hxk _ hx6) d36 (by omega)
      have x45 := hcx p4 q5 hx4f (hxk _ hx4) (d4V _) (by omega)
      have x46 := hcx p4 q6 hx4f (hxk _ hx5) (d4V _) (by omega)
      have x47 := hcx p4 q7 hx4f (hxk _ hx6) (d4V _) (by omega)
      have x56 := hcx q5 q6 (hxk _ hx4) (hxk _ hx5) d45 (by omega)
      have x57 := hcx q5 q7 (hxk _ hx4) (hxk _ hx6) d46 (by omega)
      have x67 := hcx q6 q7 (hxk _ hx5) (hxk _ hx6) d56 (by omega)
      simp only [List.append_assoc]
      refine List.pairwise_append.mpr ⟨w1, ?_, ?_⟩
      · refine List.pairwise_append.mpr ⟨w2, ?_, ?_⟩
        · refine List.pairwise_append.mpr ⟨w3, ?_, ?_⟩
          · refine List.pairwise_append.mpr ⟨w4, ?_, ?_⟩
            · refine List.pairwise_append.mpr ⟨c1block.2, ?_, ?_⟩
              · refine List.pairwise_append.mpr ⟨c2block.2, w7, ?_⟩
                · exact fun a ha bb hbb => x67 a ha bb hbb
              · intro a ha bb hbb
                rcases List.mem_append.mp hbb with h | h
                · exact x56 a ha bb h
                · exact x57 a ha bb h
            · intro a ha bb hbb
              simp only [List.mem_append] at hbb
              rcases hbb with h | h | h
              · exact x45 a ha bb h
              · exact x46 a ha bb h
              · exact x47 a ha bb h
          · intro a ha bb hbb
            simp only [List.mem_append] at hbb
            rcases hbb with h | h | h | h
            · exact x34 a ha bb h
            · exact x35 a ha bb h
            · exact x36 a ha bb h
            · exact x37 a ha bb h
        · intro a ha bb hbb
          simp only [List.mem_append] at hbb
          rcases hbb with h | h | h | h | h
          · exact x23 a ha bb h
          · exact x24 a ha bb h
          · exact x25 a ha bb h
          · exact x26 a ha bb h
          · exact x27 a ha bb h
      · intro a ha bb hbb
        simp only [List.mem_append] at hbb
        rcases hbb with h | h | h | h | h | h
        · exact x12 a ha bb h
        · exact x13 a ha bb h
        · exact x14 a ha bb h
        · exact x15 a ha bb h
        · exact x16 a ha bb h
        · exact x17 a ha bb h

/-- What `findLoader` guarantees about its matches in an alias-free tree:
every record refers to a live array of its own kind whose length exceeds the
record's index, and records of the same sibling collection come out in weakly
ascending index order. -/
theorem findLoader_valid {env : Env} {spec : SpecM} {g : Option PGate}
    {cfg : Config} {recs : List Rec}
    (hnd : (cfgIds cfg).Nodup)
    (h : findLoader env spec g cfg = .ok recs) :
    (∀ rec ∈ recs, validIn cfg rec) ∧ recs.Pairwise sameRefAsc := by
  unfold findLoader at h
  rcases hmd : cfg.module with _ | md
  · rw [hmd] at h
    dsimp only at h
    cases h
    exact ⟨fun rec hrec => absurd hrec (List.not_mem_nil rec), .nil⟩
  · rw [hmd] at h
    dsimp only at h
    rcases hrl : md.rules with _ | ⟨topId, items⟩
    · rw [hrl] at h
      dsimp only at h
      cases h
      exact ⟨fun rec hrec => absurd hrec (List.not_mem_nil rec), .nil⟩
    · rw [hrl] at h
      dsimp only at h
      obtain ⟨m, hm, hgo⟩ := bind_ok h
      have harr : cfgArrs cfg = .ra topId items :: relemsArrs items := by
        unfold cfgArrs
        rw [hmd]
        dsimp only
        rw [hrl]
      have hnd2 : (topId :: (relemsArrs items).map ArrEntry.aid).Nodup := by
        have hh := hnd
        unfold cfgIds at hh
        rw [harr] at hh
        simpa [ArrEntry.aid] using hh
      obtain ⟨hp, hw⟩ := goRules_spec m g none false topId items 0 recs hgo hnd2
      refine ⟨?_, hw⟩
      intro rec hrec
      rcases hp rec hrec with ⟨g1, g2, g3⟩ | ⟨e, he, g1, g2⟩
      · obtain ⟨h1, h2⟩ : rec.isUseItem = false ∧ rec.sib = topId := by
          simpa [Rec.ref, Prod.ext_iff] using g1
        simp only [validIn, h1, Bool.false_eq_true, if_false]
        refine ⟨items, ?_, by omega⟩
        rw [h2]
        exact lookupRA_of_mem hnd (harr ▸ List.mem_cons_self _ _)
      · cases e with
        | ra j l =>
          obtain ⟨h1, h2⟩ : rec.isUseItem = false ∧ rec.sib = j := by
            simpa [Rec.ref, ArrEntry.ref, Prod.ext_iff] using g1
          simp only [validIn, h1, Bool.false_eq_true, if_false]
          refine ⟨l, ?_, by simpa [ArrEntry.len] using g2⟩
          rw [h2]
          exact lookupRA_of_mem hnd (harr ▸ List.mem_cons_of_mem _ he)
        | ua j l =>
          obtain ⟨h1, h2⟩ : rec.isUseItem = true ∧ rec.sib = j := by
            simpa [Rec.ref, ArrEntry.ref, Prod.ext_iff] using g1
          simp only [validIn, h1, if_true]
          refine ⟨l, ?_, by simpa [ArrEntry.len] using g2⟩
          rw [h2]
          exact lookupUA_of_mem hnd (harr ▸ List.mem_cons_of_mem _ he)

/-- The splice rewrite keeps the length of every rules array. -/
theorem relemsSpl_length (t : SpliceTgt) (l : List RElem) :
    (relemsSpl t l).length = l.length := by
  rw [relemsSpl_map]
  exact List.length_map _ _

/-- The splice rewrite keeps the length of every `use` array. -/
theorem useItemsSpl_length (t : SpliceTgt) (l : List UseItem) :
    (useItemsSpl t l).length = l.length := by
  rw [useItemsSpl_map]
  exact List.length_map _ _

/-- A clean entry stored in a rules array survives the recursive rewrite of a
later splice. -/
theorem relemsSpl_keepX (t : SpliceTgt) {X : NewVal} (hX : entryClean X = true)
    {l : List RElem} {p : Nat} (h : l[p]? = some (toRElem X)) :
    (relemsSpl t l)[p]? = some (toRElem X) := by
  rw [relemsSpl_map, List.getElem?_map, h, Option.map_some']
  rw [toRElem_spl_clean t hX]

/-- A clean entry stored in a `use` array survives the recursive rewrite of a
later splice. -/
theorem useItemsSpl_keepX (t : SpliceTgt) {X : NewVal} (hX : entryClean X = true)
    {l : List UseItem} {p : Nat} (h : l[p]? = some (toUseItem X)) :
    (useItemsSpl t l)[p]? = some (toUseItem X) := by
  rw [useItemsSpl_map, List.getElem?_map, h, Option.map_some']
  rw [toUseItem_spl_clean t hX]

/-- A clean single-entry splice never shrinks a rules array (at the target it
grows by one, provided the splice position is in bounds). -/
theorem lookupRA_spl_len (t : SpliceTgt) (hR : relemsArrs t.newR = [])
    (hU : useItemsArrs t.newU = []) (cfg : Config) (j : Nat) (l : List RElem)
    (hl : lookupRA cfg j = some l)
    (hn : (!t.isUse && j == t.id) = true → t.n ≤ l.length) :
    ∃ l2, lookupRA (cfgSpl t cfg) j = some l2 ∧ l.length ≤ l2.length := by
  have hres := lookupRA_spl t hR hU cfg j
  rw [hl, Option.map_some'] at hres
  rw [hres]
  by_cases hc : (!t.isUse && j == t.id) = true
  · rw [if_pos hc]
    refine ⟨_, rfl, ?_⟩
    rw [jsSplice_length _ _ _ (by rw [relemsSpl_length]; exact hn hc),
      relemsSpl_length]
    omega
  · rw [if_neg hc]
    exact ⟨_, rfl, by rw [relemsSpl_length]⟩

/-- A clean single-entry splice never shrinks a `use` array. -/
theorem lookupUA_spl_len (t : SpliceTgt) (hR : relemsArrs t.newR = [])
    (hU : useItemsArrs t.newU = []) (cfg : Config) (j : Nat) (l : List UseItem)
    (hl : lookupUA cfg j = some l)
    (hn : (t.isUse && j == t.id) = true → t.n ≤ l.length) :
    ∃ l2, lookupUA (cfgSpl t cfg) j = some l2 ∧ l.length ≤ l2.length := by
  have hres := lookupUA_spl t hR hU cfg j
  rw [hl, Option.map_some'] at hres
  rw [hres]
  by_cases hc : (t.isUse && j == t.id) = true
  · rw [if_pos hc]
    refine ⟨_, rfl, ?_⟩
    rw [jsSplice_length _ _ _ (by rw [useItemsSpl_length]; exact hn hc),
      useItemsSpl_length]
    omega
  · rw [if_neg hc]
    exact ⟨_, rfl, by rw [useItemsSpl_length]⟩

/-- A stored copy of the clean entry at or before the splice point of a clean
single-entry splice is still found at its position afterwards (at the point
itself the newly inserted copy shows). -/
theorem lookupRA_spl_keep (t : SpliceTgt) {X : NewVal} (hX : entryClean X = true)
    (hR : relemsArrs t.newR = []) (hU : useItemsArrs t.newU = [])
    (hnew : t.newR = [toRElem X]) (cfg : Config) (j p : Nat)
    (hp : (!t.isUse && j == t.id) = true →
      p ≤ t.n ∧ t.n ≤ ((lookupRA cfg j).getD []).length)
    (hval : ((lookupRA cfg j).getD [])[p]? = some (toRElem X)) :
    ((lookupRA (cfgSpl t cfg) j).getD [])[p]? = some (toRElem X) := by
  rcases hl : lookupRA cfg j with _ | l
  · rw [hl] at hval
    simp at hval
  · rw [hl] at hval hp
    have hres := lookupRA_spl t hR hU cfg j
    rw [hl, Option.map_some'] at hres
    rw [hres]
    simp only [Option.getD_some] at hval hp ⊢
    by_cases hc : (!t.isUse && j == t.id) = true
    · rw [if_pos hc]
      obtain ⟨hp1, hp2⟩ := hp hc
      rcases Nat.lt_or_ge p t.n with hlt | hge
      · rw [jsSplice_get_lt _ _ _ _ hlt (by rw [relemsSpl_length]; exact hp2)]
        exact relemsSpl_keepX t hX hval
      · have hpn : p = t.n := by omega
        subst hpn
        rw [hnew]
        exact jsSplice_get_self _ _ _ _ (by rw [relemsSpl_length]; exact hp2)
    · rw [if_neg hc]
      exact relemsSpl_keepX t hX hval

/-- The `use`-array mirror of the previous preservation lemma. -/
theorem lookupUA_spl_keep (t : SpliceTgt) {X : NewVal} (hX : entryClean X = true)
    (hR : relemsArrs t.newR = []) (hU : useItemsArrs t.newU = [])
    (hnew : t.newU = [toUseItem X]) (cfg : Config) (j p : Nat)
    (hp : (t.isUse && j == t.id) = true →
      p ≤ t.n ∧ t.n ≤ ((lookupUA cfg j).getD []).length)
    (hval : ((lookupUA cfg j).getD [])[p]? = some (toUseItem X)) :
    ((lookupUA (cfgSpl t cfg) j).getD [])[p]? = some (toUseItem X) := by
  rcases hl : lookupUA cfg j with _ | l
  · rw [hl] at hval
    simp at hval
  · rw [hl] at hval hp
    have hres := lookupUA_spl t hR hU cfg j
    rw [hl, Option.map_some'] at hres
    rw [hres]
    simp only [Option.getD_some] at hval hp ⊢
    by_cases hc : (t.isUse && j == t.id) = true
    · rw [if_pos hc]
      obtain ⟨hp1, hp2⟩ := hp hc
      rcases Nat.lt_or_ge p t.n with hlt | hge
      · rw [jsSplice_get_lt _ _ _ _ hlt (by rw [useItemsSpl_length]; exact hp2)]
        exact useItemsSpl_keepX t hX hval
      · have hpn : p = t.n := by omega
        subst hpn
        rw [hnew]
        exact jsSplice_get_self _ _ _ _ (by rw [useItemsSpl_length]; exact hp2)
    · rw [if_neg hc]
      exact useItemsSpl_keepX t hX hval

/-- A clean single-entry splice into a rules array puts the entry's rendering
at the splice point. -/
theorem lookupRA_spl_new (t : SpliceTgt) {X : NewVal}
    (hR : relemsArrs t.newR = []) (hU : useItemsArrs t.newU = [])
    (hnew : t.newR = [toRElem X]) (ht : t.isUse = false) (cfg : Config)
    {l : List RElem} (hl : lookupRA cfg t.id = some l) (hn : t.n ≤ l.length) :
    ((lookupRA (cfgSpl t cfg) t.id).getD [])[t.n]? = some (toRElem X) := by
  have hres := lookupRA_spl t hR hU cfg t.id
  rw [hl, Option.map_some'] at hres
  rw [hres]
  have hc : (!t.isUse && t.id == t.id) = true := by simp [ht]
  rw [if_pos hc]
  simp only [Option.getD_some]
  rw [hnew]
  exact jsSplice_get_self _ _ _ _ (by rw [relemsSpl_length]; exact hn)

/-- A clean single-entry splice into a `use` array puts the entry's rendering
at the splice point. -/
theorem lookupUA_spl_new (t : SpliceTgt) {X : NewVal}
    (hR : relemsArrs t.newR = []) (hU : useItemsArrs t.newU = [])
    (hnew : t.newU = [toUseItem X]) (ht : t.isUse = true) (cfg : Config)
    {l : List UseItem} (hl : lookupUA cfg t.id = some l) (hn : t.n ≤ l.length) :
    ((lookupUA (cfgSpl t cfg) t.id).getD [])[t.n]? = some (toUseItem X) := by
  have hres := lookupUA_spl t hR hU cfg t.id
  rw [hl, Option.map_some'] at hres
  rw [hres]
  have hc : (t.isUse && t.id == t.id) = true := by simp [ht]
  rw [if_pos hc]
  simp only [Option.getD_some]
  rw [hnew]
  exact jsSplice_get_self _ _ _ _ (by rw [useItemsSpl_length]; exact hn)

/-- The heart of C1: running the per-record loop of `addLoaderAfter` over
records that refer to live arrays of their own kind in weakly ascending
per-collection order leaves, on success, a copy of the clean entry `X`
immediately after every record's original index.  The second and third
conjuncts are the preservation invariant carried through the induction: a
copy of `X` already sitting at or before every remaining splice point of its
collection is still found at its position when the loop finishes. -/
theorem addLoaderGo_after_core {X : NewVal} (hX : entryClean X = true) :
    ∀ (recs : List Rec) (cfg cfg' : Config),
    addLoaderGo (.val X) afterHandler recs cfg = .ok cfg' →
    (cfgIds cfg).Nodup →
    (∀ rec ∈ recs, validIn cfg rec) →
    recs.Pairwise sameRefAsc →
    (∀ rec ∈ recs, insertedAfter cfg' rec X) ∧
    (∀ j p : Nat,
      (∀ rec ∈ recs, rec.isUseItem = false → rec.sib = j → p ≤ rec.index + 1) →
      ((lookupRA cfg j).getD [])[p]? = some (toRElem X) →
      ((lookupRA cfg' j).getD [])[p]? = some (toRElem X)) ∧
    (∀ j p : Nat,
      (∀ rec ∈ recs, rec.isUseItem = true → rec.sib = j → p ≤ rec.index + 1) →
      ((lookupUA cfg j).getD [])[p]? = some (toUseItem X) →
      ((lookupUA cfg' j).getD [])[p]? = some (toUseItem X)) := by
  intro recs
  induction recs with
  | nil =>
    intro cfg cfg' h _ _ _
    rw [addLoaderGo] at h
    cases h
    exact ⟨fun rec hrec => absurd hrec (List.not_mem_nil rec),
      fun _ _ _ hv => hv, fun _ _ _ hv => hv⟩
  | cons rec rest ih =>
    intro cfg cfg' h hnd hvalid hpw
    rw [addLoaderGo] at h
    dsimp only at h
    obtain ⟨pos, hpos, h⟩ := bind_ok h
    unfold getPosition at hpos
    have hne : ¬((rec.index : Int) = -1) := by omega
    have hah : afterHandler (rec.index : Int) (sibLen cfg rec) rec.isUseItem
        rec.isOneOf = .num ((rec.index : Int) + 1) 0 := by
      simp [afterHandler, hne]
    rw [hah] at hpos
    have hposv := getPositionV_num_ok hpos
    subst hposv
    dsimp only at h
    rw [if_neg (by simp [decCmp_succ_ne_eq])] at h
    obtain ⟨v, hvX, h⟩ := bind_ok h
    rw [getNewRule_val_ok hvX] at h
    obtain ⟨cfg2, hc2, hrest⟩ := bind_ok h
    dsimp only [pure, Except.pure] at hc2
    cases hc2
    revert hrest
    generalize hT : (SpliceTgt.mk rec.isUseItem rec.sib
      (spliceIdx ((rec.index : Int) + 1) 0 (sibLen cfg rec))
      ((newItems X).map toRElem) ((newItems X).map toUseItem)) = t
    intro hrest
    have ht1 : t.isUse = rec.isUseItem := by rw [← hT]
    have htid : t.id = rec.sib := by rw [← hT]
    have htn0 : t.n = spliceIdx ((rec.index : Int) + 1) 0 (sibLen cfg rec) := by
      rw [← hT]
    have hnewR : t.newR = [toRElem X] := by
      rw [← hT]
      dsimp only
      rw [newItems_clean hX]
      rfl
    have hnewU : t.newU = [toUseItem X] := by
      rw [← hT]
      dsimp only
      rw [newItems_clean hX]
      rfl
    have hR : relemsArrs t.newR = [] := by
      rw [hnewR]
      exact toRElem_arrs_clean hX
    have hU : useItemsArrs t.newU = [] := by
      rw [hnewU]
      exact toUseItem_arrs_clean hX
    have hnd2 : (cfgIds (cfgSpl t cfg)).Nodup := by
      rw [cfgIds_spl t hR hU]
      exact hnd
    have hpw2 := (List.pairwise_cons.mp hpw).2
    have hhd := (List.pairwise_cons.mp hpw).1
    cases hu : rec.isUseItem with
    | false =>
      have hv := hvalid rec (List.mem_cons_self _ _)
      simp only [validIn, hu, Bool.false_eq_true, if_false] at hv
      obtain ⟨l, hl, hil⟩ := hv
      have hlen : sibLen cfg rec = l.length := by
        simp [sibLen, hu, hl]
      have htn : t.n = rec.index + 1 := by
        rw [htn0, hlen]
        exact spliceIdx_after rec.index l.length (by omega)
      have htu : t.isUse = false := by rw [ht1, hu]
      have hcRA : ∀ j : Nat, (!t.isUse && (j == t.id)) = (j == rec.sib) := by
        intro j
        rw [htu, htid]
        simp
      have hcUA : ∀ j : Nat, (t.isUse && (j == t.id)) = false := by
        intro j
        rw [htu]
        simp
      have hvalid2 : ∀ r2 ∈ rest, validIn (cfgSpl t cfg) r2 := by
        intro r2 hm2
        have hv2 := hvalid r2 (List.mem_cons_of_mem _ hm2)
        cases hu2 : r2.isUseItem with
        | false =>
          simp only [validIn, hu2, Bool.false_eq_true, if_false] at hv2 ⊢
          obtain ⟨l2, hl2, hi2⟩ := hv2
          have hn : (!t.isUse && r2.sib == t.id) = true → t.n ≤ l2.length := by
            intro hc
            rw [hcRA] at hc
            have hj : r2.sib = rec.sib := by simpa using hc
            have hll : l2 = l := by
              rw [hj, hl] at hl2
              exact ((Option.some.injEq _ _).mp hl2).symm
            rw [htn, hll]
            omega
          obtain ⟨l3, hl3, hlen3⟩ := lookupRA_spl_len t hR hU cfg r2.sib l2 hl2 hn
          exact ⟨l3, hl3, by omega⟩
        | true =>
          simp only [validIn, hu2, if_true] at hv2 ⊢
          obtain ⟨l2, hl2, hi2⟩ := hv2
          have hn : (t.isUse && r2.sib == t.id) = true → t.n ≤ l2.length := by
            intro hc
            rw [hcUA] at hc
            simp at hc
          obtain ⟨l3, hl3, hlen3⟩ := lookupUA_spl_len t hR hU cfg r2.sib l2 hl2 hn
          exact ⟨l3, hl3, by omega⟩
      obtain ⟨ins, pRA, pUA⟩ := ih (cfgSpl t cfg) cfg' hrest hnd2 hvalid2 hpw2
      refine ⟨?_, ?_, ?_⟩
      · intro r0 h0
        rcases List.mem_cons.mp h0 with h0 | h0
        · rw [h0]
          simp only [insertedAfter, hu, Bool.false_eq_true, if_false]
          refine pRA rec.sib (rec.index + 1) ?_ ?_
          · intro r2 hm2 hu2 hs2
            have hasc := hhd r2 hm2
            have hle : rec.index ≤ r2.index :=
              hasc (by simp [Rec.ref, hu, hu2, hs2])
            omega
          · have hnew := lookupRA_spl_new t hR hU hnewR htu cfg
              (by rw [htid]; exact hl) (by rw [htn]; omega)
            rw [htid, htn] at hnew
            exact hnew
        · exact ins r0 h0
      · intro j p hb hval
        refine pRA j p (fun r2 hm2 => hb r2 (List.mem_cons_of_mem _ hm2)) ?_
        refine lookupRA_spl_keep t hX hR hU hnewR cfg j p ?_ hval
        intro hc
        rw [hcRA] at hc
        have hj : j = rec.sib := by simpa using hc
        refine ⟨?_, ?_⟩
        · rw [htn]
          exact hb rec (List.mem_cons_self _ _) hu hj.symm
        · rw [hj, hl]
          simp only [Option.getD_some]
          rw [htn]
          omega
      · intro j p hb hval
        refine pUA j p (fun r2 hm2 => hb r2 (List.mem_cons_of_mem _ hm2)) ?_
        refine lookupUA_spl_keep t hX hR hU hnewU cfg j p ?_ hval
        intro hc
        rw [hcUA] at hc
        simp at hc
    | true =>
      have hv := hvalid rec (List.mem_cons_self _ _)
      simp only [validIn, hu, if_true] at hv
      obtain ⟨l, hl, hil⟩ := hv
      have hlen : sibLen cfg rec = l.length := by
        simp [sibLen, hu, hl]
      have htn : t.n = rec.index + 1 := by
        rw [htn0, hlen]
        exact spliceIdx_after rec.index l.length (by omega)
      have htu : t.isUse = true := by rw [ht1, hu]
      have hcRA : ∀ j : Nat, (!t.isUse && (j == t.id)) = false := by
        intro j
        rw [htu]
        simp
      have hcUA : ∀ j : Nat, (t.isUse && (j == t.id)) = (j == rec.sib) := by
        intro j
        rw [htu, htid]
        simp
      have hvalid2 : ∀ r2 ∈ rest, validIn (cfgSpl t cfg) r2 := by
        intro r2 hm2
        have hv2 := hvalid r2 (List.mem_cons_of_mem _ hm2)
        cases hu2 : r2.isUseItem with
        | false =>
          simp only [validIn, hu2, Bool.false_eq_true, if_false] at hv2 ⊢
          obtain ⟨l2, hl2, hi2⟩ := hv2
          have hn : (!t.isUse && r2.sib == t.id) = true → t.n ≤ l2.length := by
            intro hc
            rw [hcRA] at hc
            simp at hc
          obtain ⟨l3, hl3, hlen3⟩ := lookupRA_spl_len t hR hU cfg r2.sib l2 hl2 hn
          exact ⟨l3, hl3, by omega⟩
        | true =>
          simp only [validIn, hu2, if_true] at hv2 ⊢
          obtain ⟨l2, hl2, hi2⟩ := hv2
          have hn : (t.isUse && r2.sib == t.id) = true → t.n ≤ l2.length := by
            intro hc
            rw [hcUA] at hc
            have hj : r2.sib = rec.sib := by simpa using hc
            have hll : l2 = l := by
              rw [hj, hl] at hl2
              exact ((Option.some.injEq _ _).mp hl2).symm
            rw [htn, hll]
            omega
          obtain ⟨l3, hl3, hlen3⟩ := lookupUA_spl_len t hR hU cfg r2.sib l2 hl2 hn
          exact ⟨l3, hl3, by omega⟩
      obtain ⟨ins, pRA, pUA⟩ := ih (cfgSpl t cfg) cfg' hrest hnd2 hvalid2 hpw2
      refine ⟨?_, ?_, ?_⟩
      · intro r0 h0
        rcases List.mem_cons.mp h0 with h0 | h0
        · rw [h0]
          simp only [insertedAfter, hu, if_true]
          refine pUA rec.sib (rec.index + 1) ?_ ?_
          · intro r2 hm2 hu2 hs2
            have hasc := hhd r2 hm2
            have hle : rec.index ≤ r2.index :=
              hasc (by simp [Rec.ref, hu, hu2, hs2])
            omega
          · have hnew := lookupUA_spl_new t hR hU hnewU htu cfg
              (by rw [htid]; exact hl) (by rw [htn]; omega)
            rw [htid, htn] at hnew
            exact hnew
        · exact ins r0 h0
      · intro j p hb hval
        refine pRA j p (fun r2 hm2 => hb r2 (List.mem_cons_of_mem _ hm2)) ?_
        refine lookupRA_spl_keep t hX hR hU hnewR cfg j p ?_ hval
        intro hc
        rw [hcRA] at hc
        simp at hc
      · intro j p hb hval
        refine pUA j p (fun r2 hm2 => hb r2 (List.mem_cons_of_mem _ hm2)) ?_
        refine lookupUA_spl_keep t hX hR hU hnewU cfg j p ?_ hval
        intro hc
        rw [hcUA] at hc
        have hj : j = rec.sib := by simpa using hc
        refine ⟨?_, ?_⟩
        · rw [htn]
          exact hb rec (List.mem_cons_self _ _) hu hj.symm
        · rw [hj, hl]
          simp only [Option.getD_some]
          rw [htn]
          omega

/-- C1: for every configuration tree, loader specifier and new entry, after a
successful `addLoaderAfter` every sibling collection that contained an
original match at sibling-index `i` holds the new entry at `i + 1` — also
when several matches share one collection, since the matches of a collection
are reported in ascending index order and each splice lands behind all
earlier insertion points (cumulative shift accounted for).  The tree is
assumed alias-free (`Nodup` array ids) and the entry a fresh single object,
string or function (`entryClean`), which is how the JS aliasing model maps to
the id-based embedding. -/
theorem c1_theorem (env : Env) (spec : String) (X : NewVal) (cfg cfg' : Config)
    (recs : List Rec)
    (hids : (cfgIds cfg).Nodup) (hX : entryClean X = true)
    (hfind : findLoader env (.str spec) none cfg = .ok recs)
    (hadd : addLoaderAfter env (.str spec) (.val X) cfg = .ok cfg') :
    ∀ rec ∈ recs, insertedAfter cfg' rec X := by
  unfold addLoaderAfter addLoader at hadd
  obtain ⟨matched, hm, hadd⟩ := bind_ok hadd
  rw [hfind] at hm
  cases hm
  by_cases hemp : recs.isEmpty = true
  · intro rec hrec
    rw [List.isEmpty_iff.mp hemp] at hrec
    cases hrec
  · rw [if_neg hemp] at hadd
    obtain ⟨hvalid, hpw⟩ := findLoader_valid hids hfind
    exact (addLoaderGo_after_core hX recs cfg cfg' hadd hids hvalid hpw).1

unseal goRules gpnLoop stripTens10 digits10 in
/-- Witness for C1 on the two-match configuration `cfgTwoX`: both records of
the shared top collection (indices 0 and 1) end up with the entry `ruleY`
right behind them in the final array `[x, y, y, x]`. -/
theorem c1_witness :
    insertedAfter ⟨some ⟨some (1, [.rule ruleX, .rule ruleY, .rule ruleY, .rule ruleX])⟩⟩
      ⟨some "x", 0, false, false, 1⟩ entryY ∧
    insertedAfter ⟨some ⟨some (1, [.rule ruleX, .rule ruleY, .rule ruleY, .rule ruleX])⟩⟩
      ⟨some "x", 1, false, false, 1⟩ entryY :=
  ⟨c1_theorem bareEnv "x" entryY cfgTwoX
     ⟨some ⟨some (1, [.rule ruleX, .rule ruleY, .rule ruleY, .rule ruleX])⟩⟩
     [⟨some "x", 0, false, false, 1⟩, ⟨some "x", 1, false, false, 1⟩]
     (by decide) (by decide) rfl rfl ⟨some "x", 0, false, false, 1⟩ (by decide),
   c1_theorem bareEnv "x" entryY cfgTwoX
     ⟨some ⟨some (1, [.rule ruleX, .rule ruleY, .rule ruleY, .rule ruleX])⟩⟩
     [⟨some "x", 0, false, false, 1⟩, ⟨some "x", 1, false, false, 1⟩]
     (by decide) (by decide) rfl rfl ⟨some "x", 1, false, false, 1⟩ (by decide)⟩

end UseLoader
